import Mathlib

/-!
Verification development for the wetwire dependency/ordering engine.

Shallow embedding of:
* `wetwire/ordering.py` (`topological_sort`, `get_creation_order`,
  `get_deletion_order`, `get_dependency_graph`)
* `wetwire_aws/importer/codegen/topology.py`
  (`find_strongly_connected_components`, `find_resource_dependencies`,
  `_find_sub_in_value`, `order_scc_resources`)
* `wetwire_aws/base.py` (`CloudFormationResource.to_dict`)
* `wetwire/registry.py` (`ResourceRegistry`)

Wrapper classes are identified by their names (strings); the external
`graph_refs.get_dependencies` introspection is modelled as an explicit
dependency function `deps : String → List String` (set semantics: only
membership matters).  Python sets are modelled as duplicate-free lists;
set iteration order is modelled as list order.
-/

namespace Wetwire.Ordering

/-- The classes of `remaining` whose dependencies are all already placed in
`sorted_result`.  Mirrors the `ready` list comprehension of
`topological_sort` (ordering.py lines 56-62); note that in the source the
union target is `set(sorted_result) | (set(classes) - class_set)` where
`class_set = set(classes)`, so the second operand is always empty and the
test is exactly `get_dependencies(cls).issubset(set(sorted_result))`. -/
def readyOf (deps : String → List String) (sorted_result remaining : List String) :
    List String :=
  remaining.filter (fun c => (deps c).all (fun d => sorted_result.contains d))

/-- The `while remaining:` loop of `topological_sort` (ordering.py lines
48-72).  `fuel` models the `max_iterations` counter: the source raises the
circular-dependency error when `iterations > max_iterations`, i.e. after
`max_iterations` full passes.  Errors are modelled as `Except.error`
carrying the list of class names the source would put into the
`Circular dependency detected involving: ...` message (the `remaining`
set). -/
def sortLoop (deps : String → List String) :
    Nat → List String → List String → Except (List String) (List String)
  | 0, sorted_result, remaining =>
    if remaining.isEmpty then .ok sorted_result else .error remaining
  | fuel + 1, sorted_result, remaining =>
    if remaining.isEmpty then .ok sorted_result
    else
      let ready := readyOf deps sorted_result remaining
      if ready.isEmpty then .error remaining
      else sortLoop deps fuel (sorted_result ++ ready)
          (remaining.filter (fun c => !ready.contains c))

/-- `topological_sort` (ordering.py lines 14-74).  The Python `set(classes)`
is modelled by `classes.dedup`;  `max_iterations = len(classes) ** 2`. -/
def topological_sort (deps : String → List String) (classes : List String) :
    Except (List String) (List String) :=
  if classes.isEmpty then .ok []
  else sortLoop deps (classes.length * classes.length) [] classes.dedup

/-- `get_creation_order` (ordering.py lines 77-93). -/
def get_creation_order (deps : String → List String) (classes : List String) :
    Except (List String) (List String) :=
  topological_sort deps classes

/-- `get_deletion_order` (ordering.py lines 96-112):
`list(reversed(topological_sort(classes)))`. -/
def get_deletion_order (deps : String → List String) (classes : List String) :
    Except (List String) (List String) :=
  (topological_sort deps classes).map List.reverse

/-- `get_dependency_graph` (ordering.py lines 185-205):
each class is mapped to `get_dependencies(cls) & class_set`. -/
def get_dependency_graph (deps : String → List String) (classes : List String) :
    List (String × List String) :=
  classes.map (fun c => (c, (deps c).filter (fun d => classes.contains d)))

/-- One-step dependency relation restricted to the input class list:
`DepRel deps classes d c` holds when `c` is a listed class depending on the
listed class `d`. -/
def DepRel (deps : String → List String) (classes : List String)
    (d c : String) : Prop :=
  c ∈ classes ∧ d ∈ classes ∧ d ∈ deps c

/-- Acyclicity of the dependency relation over the listed classes: no class
transitively depends on itself. -/
def Acyclic (deps : String → List String) (classes : List String) : Prop :=
  ∀ c, ¬ Relation.TransGen (DepRel deps classes) c c

/-- A list has no forward dependency when no element is a dependency of an
earlier element: every dependency either precedes its dependent or is
absent from the list. -/
def NoFwdDep (deps : String → List String) (l : List String) : Prop :=
  l.Pairwise (fun a b => b ∉ deps a)

theorem acyclic_of_rank (deps : String → List String) (classes : List String)
    (rank : String → Nat)
    (h : ∀ d c, DepRel deps classes d c → rank d < rank c) :
    Acyclic deps classes := by
  intro c hc
  have key : ∀ a b, Relation.TransGen (DepRel deps classes) a b → rank a < rank b := by
    intro a b hab
    induction hab with
    | single h1 => exact h _ _ h1
    | tail _ h2 ih => exact ih.trans (h _ _ h2)
  exact absurd (key c c hc) (lt_irrefl _)

theorem acyclic_of_empty_rel (deps : String → List String) (classes : List String)
    (h : ∀ d c, ¬ DepRel deps classes d c) : Acyclic deps classes := by
  intro c hc
  have key : ∀ a b, Relation.TransGen (DepRel deps classes) a b → False := by
    intro a b hab
    induction hab with
    | single h1 => exact h _ _ h1
    | tail _ h2 _ => exact h _ _ h2
  exact key c c hc

/-- When no class of the (nonempty) remaining set is ready, following one
unsatisfied dependency from each class yields a cycle; contrapositively, an
acyclic dependency relation always leaves some class ready.  This is the
key step behind termination of the `while` loop of `topological_sort`. -/
theorem exists_ready (deps : String → List String) (classes : List String)
    (sorted_result remaining : List String)
    (hacyc : Acyclic deps classes)
    (hsub : ∀ c ∈ remaining, c ∈ classes)
    (hclo : ∀ c ∈ remaining, ∀ d ∈ deps c, d ∈ classes)
    (hpart : ∀ c ∈ remaining, ∀ d ∈ deps c, d ∉ sorted_result → d ∈ remaining)
    (hne : remaining ≠ []) :
    ∃ c ∈ remaining, ∀ d ∈ deps c, d ∈ sorted_result := by
  by_contra hno
  push_neg at hno
  classical
  -- pick, for each blocked class, one unsatisfied dependency
  let g : String → String := fun c =>
    if h : ∃ d, d ∈ deps c ∧ d ∉ sorted_result then h.choose else c
  have hg : ∀ c ∈ remaining, g c ∈ deps c ∧ g c ∉ sorted_result := by
    intro c hc
    obtain ⟨d, hd1, hd2⟩ := hno c hc
    have hex : ∃ d, d ∈ deps c ∧ d ∉ sorted_result := ⟨d, hd1, hd2⟩
    simpa only [g, dif_pos hex] using hex.choose_spec
  have hgrem : ∀ c ∈ remaining, g c ∈ remaining := by
    intro c hc
    exact hpart c hc _ (hg c hc).1 (hg c hc).2
  have hgrel : ∀ c ∈ remaining, DepRel deps classes (g c) c := by
    intro c hc
    exact ⟨hsub c hc, hclo c hc _ (hg c hc).1, (hg c hc).1⟩
  obtain ⟨a, ha⟩ := List.exists_mem_of_ne_nil remaining hne
  -- iterate the chosen-dependency map
  have hseq : ∀ n, g^[n] a ∈ remaining := by
    intro n
    induction n with
    | zero => simpa using ha
    | succ k ih => rw [Function.iterate_succ_apply']; exact hgrem _ ih
  have hstep : ∀ n, DepRel deps classes (g^[n + 1] a) (g^[n] a) := by
    intro n
    rw [Function.iterate_succ_apply']
    exact hgrel _ (hseq n)
  have hchain : ∀ i k, Relation.TransGen (DepRel deps classes)
      (g^[i + k + 1] a) (g^[i] a) := by
    intro i k
    induction k with
    | zero => exact .single (hstep i)
    | succ m ih =>
      have h1 : DepRel deps classes (g^[i + (m + 1) + 1] a) (g^[i + m + 1] a) := by
        have := hstep (i + m + 1)
        simpa [Nat.add_assoc, Nat.add_comm, Nat.add_left_comm] using this
      exact Relation.TransGen.head h1 ih
  -- pigeonhole over the finite remaining set
  have hmaps : ∀ n ∈ Finset.range (remaining.length + 1),
      g^[n] a ∈ remaining.toFinset := by
    intro n _
    exact List.mem_toFinset.mpr (hseq n)
  have hcard : remaining.toFinset.card < (Finset.range (remaining.length + 1)).card := by
    rw [Finset.card_range]
    exact Nat.lt_succ_of_le (List.toFinset_card_le remaining)
  obtain ⟨x, _, y, _, hxy, heq⟩ :=
    Finset.exists_ne_map_eq_of_card_lt_of_maps_to hcard hmaps
  rcases hxy.lt_or_lt with hlt | hlt
  · obtain ⟨k, hk⟩ := Nat.exists_eq_add_of_lt hlt
    have := hchain x k
    rw [← hk, heq] at this
    exact hacyc _ this
  · obtain ⟨k, hk⟩ := Nat.exists_eq_add_of_lt hlt
    have := hchain y k
    rw [← hk, ← heq] at this
    exact hacyc _ this

/-- Main invariant lemma for the loop of `topological_sort`: with enough
fuel, a duplicate-free acyclic remaining set closed under dependencies is
emptied completely, the emitted suffix is a permutation of it, and the full
output has no forward dependencies. -/
theorem sortLoop_spec (deps : String → List String) (classes : List String)
    (hacyc : Acyclic deps classes)
    (n : Nat) :
    ∀ remaining fuel sorted_result, remaining.length = n →
      remaining.length ≤ fuel →
      remaining.Nodup →
      (∀ c ∈ remaining, c ∈ classes) →
      (∀ c ∈ remaining, ∀ d ∈ deps c, d ∈ classes) →
      (∀ c ∈ remaining, c ∉ sorted_result) →
      (∀ c ∈ remaining, ∀ d ∈ deps c, d ∈ sorted_result ∨ d ∈ remaining) →
      (∀ c ∈ sorted_result, ∀ d ∈ deps c, d ∈ sorted_result) →
      NoFwdDep deps sorted_result →
      ∃ l, sortLoop deps fuel sorted_result remaining = .ok (sorted_result ++ l) ∧
        l.Perm remaining ∧ NoFwdDep deps (sorted_result ++ l) ∧
        (∀ c ∈ l, ∀ d ∈ deps c, d ∈ sorted_result ++ l) := by
  induction n using Nat.strong_induction_on with
  | _ n ih =>
    intro remaining fuel sorted_result hlen hfuel hnd hsubc hclo hdisj hclosure hscl hnofwd
    by_cases hrem : remaining.isEmpty
    · refine ⟨[], ?_, ?_, ?_, ?_⟩
      · cases fuel <;> simp [sortLoop, hrem]
      · simp [List.isEmpty_iff.mp hrem]
      · simpa using hnofwd
      · simp
    · have hne : remaining ≠ [] := fun h => hrem (by simp [h])
      have hlenpos : 0 < remaining.length := List.length_pos.mpr hne
      obtain ⟨fuel', rfl⟩ : ∃ k, fuel = k + 1 := by
        cases fuel with
        | zero => omega
        | succ k => exact ⟨k, rfl⟩
      obtain ⟨c0, hc0mem, hc0deps⟩ :=
        exists_ready deps classes sorted_result remaining hacyc hsubc hclo
          (fun c hc d hd hds => (hclosure c hc d hd).resolve_left hds) hne
      set ready := readyOf deps sorted_result remaining with hready
      have hmem_ready : ∀ c, c ∈ ready ↔ c ∈ remaining ∧ ∀ d ∈ deps c, d ∈ sorted_result := by
        intro c
        simp [hready, readyOf, List.mem_filter, List.all_eq_true, List.elem_iff]
      have hc0ready : c0 ∈ ready := (hmem_ready c0).mpr ⟨hc0mem, hc0deps⟩
      have hready_ne : ¬ ready.isEmpty = true := by
        intro h
        rw [List.isEmpty_iff] at h
        rw [h] at hc0ready
        exact absurd hc0ready (List.not_mem_nil c0)
      have hready_sub : ∀ c ∈ ready, c ∈ remaining := fun c hc => ((hmem_ready c).mp hc).1
      have hready_deps : ∀ c ∈ ready, ∀ d ∈ deps c, d ∈ sorted_result :=
        fun c hc => ((hmem_ready c).mp hc).2
      set remaining' := remaining.filter (fun c => !ready.contains c) with hremaining'
      have hmem_rem' : ∀ c, c ∈ remaining' ↔ c ∈ remaining ∧ c ∉ ready := by
        intro c
        simp [hremaining', List.mem_filter, List.elem_iff]
      have hlen' : remaining'.length < n := by
        rw [← hlen, hremaining']
        exact List.length_filter_lt_length_iff_exists.mpr
          ⟨c0, hc0mem, by simp [List.elem_iff, hc0ready]⟩
      have hstep : sortLoop deps (fuel' + 1) sorted_result remaining =
          sortLoop deps fuel' (sorted_result ++ ready) remaining' := by
        rw [sortLoop]
        rw [if_neg hrem, ← hready, if_neg hready_ne, hremaining']
      -- invariants for the recursive call
      have hnd' : remaining'.Nodup := hnd.filter _
      have hsubc' : ∀ c ∈ remaining', c ∈ classes :=
        fun c hc => hsubc c ((hmem_rem' c).mp hc).1
      have hclo' : ∀ c ∈ remaining', ∀ d ∈ deps c, d ∈ classes :=
        fun c hc => hclo c ((hmem_rem' c).mp hc).1
      have hdisj' : ∀ c ∈ remaining', c ∉ sorted_result ++ ready := by
        intro c hc hmem
        obtain ⟨hc1, hc2⟩ := (hmem_rem' c).mp hc
        rcases List.mem_append.mp hmem with h | h
        · exact hdisj c hc1 h
        · exact hc2 h
      have hclosure' : ∀ c ∈ remaining', ∀ d ∈ deps c,
          d ∈ sorted_result ++ ready ∨ d ∈ remaining' := by
        intro c hc d hd
        obtain ⟨hc1, _⟩ := (hmem_rem' c).mp hc
        rcases hclosure c hc1 d hd with h | h
        · exact Or.inl (List.mem_append.mpr (Or.inl h))
        · by_cases hdr : d ∈ ready
          · exact Or.inl (List.mem_append.mpr (Or.inr hdr))
          · exact Or.inr ((hmem_rem' d).mpr ⟨h, hdr⟩)
      have hscl' : ∀ c ∈ sorted_result ++ ready, ∀ d ∈ deps c,
          d ∈ sorted_result ++ ready := by
        intro c hc d hd
        rcases List.mem_append.mp hc with h | h
        · exact List.mem_append.mpr (Or.inl (hscl c h d hd))
        · exact List.mem_append.mpr (Or.inl (hready_deps c h d hd))
      have hnofwd' : NoFwdDep deps (sorted_result ++ ready) := by
        rw [NoFwdDep, List.pairwise_append]
        refine ⟨hnofwd, ?_, ?_⟩
        · -- within the ready batch: all dependencies already sorted
          have : ∀ a ∈ ready, ∀ b ∈ ready, b ∉ deps a := by
            intro a ha b hb hdep
            exact hdisj b (hready_sub b hb) (hready_deps a ha b hdep)
          exact List.Pairwise.and_mem.mpr
            (List.pairwise_of_forall_mem_list (fun a ha b hb => ⟨ha, hb, this a ha b hb⟩))
        · intro a ha b hb hdep
          exact hdisj b (hready_sub b hb) (hscl a ha b hdep)
      have hfuel' : remaining'.length ≤ fuel' := by omega
      obtain ⟨l', heq', hperm', hnofwd'', hclosed''⟩ :=
        ih remaining'.length hlen' remaining' fuel' (sorted_result ++ ready) rfl hfuel'
          hnd' hsubc' hclo' hdisj' hclosure' hscl' hnofwd'
      -- remaining is a permutation of ready ++ remaining'
      have hsplit : (ready ++ remaining').Perm remaining := by
        have hcongr : remaining' = remaining.filter
            (fun c => !((deps c).all (fun d => sorted_result.contains d))) := by
          rw [hremaining']
          apply List.filter_congr
          intro c hc
          have hbool : ready.contains c = (deps c).all (fun d => sorted_result.contains d) := by
            by_cases h : c ∈ ready
            · have h1 : ready.contains c = true := by simpa [List.elem_iff] using h
              have h2 : (deps c).all (fun d => sorted_result.contains d) = true := by
                simp only [List.all_eq_true]
                intro d hd
                simpa [List.elem_iff] using hready_deps c h d hd
              rw [h1, h2]
            · have h1 : ready.contains c = false := by
                simpa [List.elem_iff] using h
              have h2 : (deps c).all (fun d => sorted_result.contains d) = false := by
                rw [Bool.eq_false_iff]
                intro hall
                apply h
                apply (hmem_ready c).mpr
                refine ⟨hc, ?_⟩
                intro d hd
                have := List.all_eq_true.mp hall d hd
                simpa [List.elem_iff] using this
              rw [h1, h2]
          rw [hbool]
        rw [hcongr, hready, readyOf]
        exact List.filter_append_perm _ remaining
      refine ⟨ready ++ l', ?_, ?_, ?_, ?_⟩
      · rw [hstep, heq', List.append_assoc]
      · exact (hperm'.append_left ready).trans hsplit
      · rw [← List.append_assoc]; exact hnofwd''
      · intro c hc d hd
        rcases List.mem_append.mp hc with h | h
        · exact List.mem_append.mpr (Or.inl (hready_deps c h d hd))
        · have := hclosed'' c h d hd
          rw [List.append_assoc] at this
          exact this

/-- Specification of `topological_sort` on duplicate-free, dependency-closed,
acyclic inputs: it succeeds with a permutation of the input that has no
forward dependency. -/
theorem topological_sort_spec (deps : String → List String) (classes : List String)
    (hnd : classes.Nodup)
    (hclo : ∀ c ∈ classes, ∀ d ∈ deps c, d ∈ classes)
    (hacyc : Acyclic deps classes) :
    ∃ l, topological_sort deps classes = .ok l ∧ l.Perm classes ∧ NoFwdDep deps l := by
  by_cases hc : classes.isEmpty
  · have : classes = [] := List.isEmpty_iff.mp hc
    subst this
    exact ⟨[], by simp [topological_sort], by simp, by simp [NoFwdDep]⟩
  · have hne : classes ≠ [] := fun h => hc (by simp [h])
    have hlenpos : 0 < classes.length := List.length_pos.mpr hne
    have hdedup : classes.dedup = classes := List.dedup_eq_self.mpr hnd
    obtain ⟨l, heq, hperm, hnofwd, _⟩ :=
      sortLoop_spec deps classes hacyc classes.length classes
        (classes.length * classes.length) [] rfl
        (Nat.le_mul_of_pos_left _ hlenpos) hnd (fun c h => h) hclo
        (fun c _ h => absurd h (List.not_mem_nil c))
        (fun c h d hd => Or.inr (hclo c h d hd))
        (fun c h => absurd h (List.not_mem_nil c))
        (by simp [NoFwdDep])
    refine ⟨l, ?_, hperm, ?_⟩
    · rw [topological_sort, if_neg hc, hdedup, heq]
      simp
    · simpa [NoFwdDep] using hnofwd

/-- In a duplicate-free list with no forward dependency, every dependency
precedes its dependent. -/
theorem noFwdDep_indexOf (deps : String → List String) (l : List String)
    (hnd : l.Nodup) (hnf : NoFwdDep deps l) (c d : String)
    (hc : c ∈ l) (hd : d ∈ l) (hdep : d ∈ deps c) (hne : d ≠ c) :
    l.indexOf d < l.indexOf c := by
  have hci : l.indexOf c < l.length := List.indexOf_lt_length.mpr hc
  have hdi : l.indexOf d < l.length := List.indexOf_lt_length.mpr hd
  rcases Nat.lt_trichotomy (l.indexOf d) (l.indexOf c) with h | h | h
  · exact h
  · exfalso
    apply hne
    have h1 : l[l.indexOf d] = d := List.getElem_indexOf hdi
    have h2 : l[l.indexOf c] = c := List.getElem_indexOf hci
    rw [← h1, ← h2]
    congr 1
  · exfalso
    have hp := List.pairwise_iff_getElem.mp hnf (l.indexOf c) (l.indexOf d) hci hdi h
    rw [List.getElem_indexOf hci, List.getElem_indexOf hdi] at hp
    exact hp hdep

/-- The dependency function of the spec's Scenario A linear chain:
`Network` has no dependencies, `Subnet` depends on `Network`, `Instance`
depends on `Subnet`. -/
def chainDeps : String → List String := fun c =>
  if c = "Subnet" then ["Network"]
  else if c = "Instance" then ["Subnet"]
  else []

theorem chainDeps_acyclic :
    Acyclic chainDeps ["Instance", "Subnet", "Network"] := by
  apply acyclic_of_rank _ _ (fun c => if c = "Network" then 0 else if c = "Subnet" then 1 else 2)
  rintro d c ⟨hc, _, hdep⟩
  simp only [List.mem_cons, List.mem_singleton, List.not_mem_nil, or_false] at hc
  rcases hc with rfl | rfl | rfl <;> simp [chainDeps] at hdep <;> subst hdep <;> simp

/-- C1.  For every duplicate-free list of wrapper classes whose dependency
relation is acyclic and all of whose dependencies are members of the list,
`get_creation_order` (`topological_sort`) returns a permutation of the
input in which every class appears strictly after every class it depends
on; and on the Scenario A chain (`Network` ← `Subnet` ← `Instance`,
passed as `[Instance, Subnet, Network]` as in the source's doctest) it
returns `[Network, Subnet, Instance]`. -/
theorem claim1_creation_order_topological :
    (∀ (deps : String → List String) (classes : List String),
      classes.Nodup →
      (∀ c ∈ classes, ∀ d ∈ deps c, d ∈ classes) →
      Acyclic deps classes →
      ∃ l, get_creation_order deps classes = .ok l ∧ l.Perm classes ∧
        ∀ c ∈ classes, ∀ d ∈ deps c, l.indexOf d < l.indexOf c) ∧
    get_creation_order chainDeps ["Instance", "Subnet", "Network"] =
      .ok ["Network", "Subnet", "Instance"] := by
  constructor
  · intro deps classes hnd hclo hacyc
    obtain ⟨l, heq, hperm, hnofwd⟩ := topological_sort_spec deps classes hnd hclo hacyc
    refine ⟨l, heq, hperm, ?_⟩
    intro c hc d hd
    have hdc : d ∈ classes := hclo c hc d hd
    have hne : d ≠ c := by
      rintro rfl
      exact hacyc d (.single ⟨hc, hdc, hd⟩)
    exact noFwdDep_indexOf deps l (hperm.nodup_iff.mpr hnd) hnofwd c d
      (hperm.mem_iff.mpr hc) (hperm.mem_iff.mpr hdc) hd hne
  · rfl

/-- Witness for C1: the universal part applied to the Scenario A chain. -/
theorem claim1_witness :
    ∃ l, get_creation_order chainDeps ["Instance", "Subnet", "Network"] = .ok l ∧
      l.Perm ["Instance", "Subnet", "Network"] ∧
      ∀ c ∈ ["Instance", "Subnet", "Network"], ∀ d ∈ chainDeps c,
        l.indexOf d < l.indexOf c :=
  claim1_creation_order_topological.1 chainDeps ["Instance", "Subnet", "Network"]
    (by decide)
    (by intro c hc d hd; fin_cases hc <;> simp [chainDeps] at hd <;> simp [hd])
    chainDeps_acyclic

/-- C2 (code bug): `topological_sort` raises the circular-dependency error
on the acyclic one-element input `[A]` whose sole dependency `X` is not a
member of the input list.  In the source, the satisfied-dependency target
`set(sorted_result) | (set(classes) - class_set)` always has an empty
second operand, so a dependency outside the list is never satisfiable and
the acyclic input is misreported as circular, contradicting both the
claim and the function's own docstring (`Raises ValueError: If circular
dependencies exist`). -/
theorem claim2_circular_error_on_acyclic_input :
    topological_sort (fun c => if c = "A" then ["X"] else []) ["A"] = .error ["A"] ∧
    Acyclic (fun c => if c = "A" then ["X"] else []) ["A"] := by
  constructor
  · rfl
  · apply acyclic_of_empty_rel
    rintro d c ⟨hc, hd, hdep⟩
    simp only [List.mem_singleton] at hc hd
    subst hc; subst hd
    simp at hdep

/-- C7 counterexample: two mutually independent classes passed as
`[B, A]`.  `topological_sort` keeps them in iteration order `[B, A]`,
so the lexically smaller name `A` does not precede `B`: there is no
LogicalId tie-break in the code (the `ready` batch is taken in the
iteration order of the `remaining` set, never sorted by name). -/
theorem claim7_counterexample :
    topological_sort (fun _ => []) ["B", "A"] = .ok ["B", "A"] ∧
    ¬ (["B", "A"] : List String).indexOf "A" < (["B", "A"] : List String).indexOf "B" := by
  exact ⟨rfl, by decide⟩

/-- C7 amended: among mutually independent classes (no dependencies at
all), `topological_sort` returns the classes in input (iteration) order —
it applies no LogicalId sorting. -/
theorem claim7_no_logical_id_tiebreak (deps : String → List String)
    (classes : List String) (hnd : classes.Nodup)
    (hind : ∀ c ∈ classes, deps c = []) :
    topological_sort deps classes = .ok classes := by
  by_cases hc : classes.isEmpty
  · have : classes = [] := List.isEmpty_iff.mp hc
    subst this
    simp [topological_sort]
  · have hne : classes ≠ [] := fun h => hc (by simp [h])
    have hdedup : classes.dedup = classes := List.dedup_eq_self.mpr hnd
    rw [topological_sort, if_neg hc, hdedup]
    obtain ⟨k, hk⟩ : ∃ k, classes.length * classes.length = k + 1 := by
      have : 0 < classes.length := List.length_pos.mpr hne
      have : 0 < classes.length * classes.length := Nat.mul_pos this this
      exact ⟨classes.length * classes.length - 1, by omega⟩
    rw [hk, sortLoop]
    rw [if_neg hc]
    have hready : readyOf deps [] classes = classes := by
      rw [readyOf]
      apply List.filter_eq_self.mpr
      intro c hcm
      simp [hind c hcm]
    have hready_ne : ¬ (readyOf deps [] classes).isEmpty = true := by
      rw [hready]
      intro h
      exact hne (List.isEmpty_iff.mp h)
    rw [if_neg hready_ne, hready]
    have hrem : classes.filter (fun c => !classes.contains c) = [] := by
      apply List.filter_eq_nil_iff.mpr
      intro c hcm
      simp [List.elem_iff, hcm]
    rw [hrem]
    cases k <;> simp [sortLoop]

/-- Witness for C7's amended theorem at a concrete independent pair. -/
theorem claim7_witness :
    topological_sort (fun _ => []) ["B", "A"] = .ok ["B", "A"] :=
  claim7_no_logical_id_tiebreak (fun _ => []) ["B", "A"] (by decide)
    (fun _ _ => rfl)

/-- C8.  `get_deletion_order` is exactly the reverse of
`get_creation_order` on every input, and fails (with the same error)
exactly when `get_creation_order` fails. -/
theorem claim8_deletion_reverse_of_creation (deps : String → List String)
    (classes : List String) :
    get_deletion_order deps classes =
      (get_creation_order deps classes).map List.reverse ∧
    (∀ l, get_creation_order deps classes = .ok l ↔
      get_deletion_order deps classes = .ok l.reverse) ∧
    (∀ e, get_creation_order deps classes = .error e ↔
      get_deletion_order deps classes = .error e) := by
  refine ⟨rfl, ?_, ?_⟩
  · intro l
    rw [get_deletion_order, get_creation_order]
    cases topological_sort deps classes with
    | ok a =>
      simp only [Except.map, Except.ok.injEq]
      exact ⟨fun h => by rw [h], fun h => by
        have := List.reverse_injective h
        simpa using this⟩
    | error e => simp [Except.map]
  · intro e
    rw [get_deletion_order, get_creation_order]
    cases topological_sort deps classes with
    | ok a => simp [Except.map]
    | error e' => simp [Except.map]

end Wetwire.Ordering

namespace WetwireAws.Base

/-!
Embedding of `wetwire_aws/base.py`.  Python runtime values appearing in a
resource's `__dict__` are modelled by `PyVal`; Python `None` is
`PyVal.null`, and serialized JSON null would likewise be `PyVal.null`.
-/

inductive PyVal where
  | null
  | str (s : String)
  | int (n : Int)
  | bool (b : Bool)
  | list (l : List PyVal)
  | dict (l : List (String × PyVal))

/-- Discriminator for Python `None` (needed because the claim asserts the
optional keys are never emitted with a null value). -/
def PyVal.isNull : PyVal → Bool
  | .null => true
  | _ => false

/-- Python truthiness of the values a `PyVal` models (used by the
`if self.depends_on:`-style guards of `to_dict`). -/
def PyVal.truthy : PyVal → Bool
  | .null => false
  | .str s => !s.isEmpty
  | .int n => !(n == 0)
  | .bool b => b
  | .list l => !l.isEmpty
  | .dict l => !l.isEmpty

mutual

/-- `_serialize_value` (base.py lines 12-28) restricted to the plain
values modelled by `PyVal` (a value with a `to_dict` method is already a
dict in this model): lists and dicts are rebuilt recursively, primitives
are returned unchanged. -/
def serializeValue : PyVal → PyVal
  | .list l => .list (serializeList l)
  | .dict l => .dict (serializeDict l)
  | v => v

def serializeList : List PyVal → List PyVal
  | [] => []
  | v :: vs => serializeValue v :: serializeList vs

def serializeDict : List (String × PyVal) → List (String × PyVal)
  | [] => []
  | p :: ps => (p.1, serializeValue p.2) :: serializeDict ps

end

/-- `_to_cf_name` (base.py lines 31-44): strip a single trailing
underscore, split on underscores, capitalize each word. -/
def toCfName (snake_name : String) : String :=
  let stripped :=
    if snake_name.endsWith "_" ∧ ¬ snake_name.endsWith "__" then
      snake_name.dropRight 1
    else snake_name
  String.join ((stripped.splitOn "_").map String.capitalize)

/-- `CloudFormationResource` (base.py lines 83-104).  `props` holds the
non-metadata instance attributes of `self.__dict__` in insertion order;
`depends_on` holds the names of the listed classes (serialization uses
`cls.__name__`). -/
structure CFResource where
  resourceType : String
  propertyMappings : List (String × String)
  props : List (String × PyVal)
  depends_on : Option (List String)
  condition : Option String
  metadata : Option (List (String × PyVal))
  deletion_policy : Option String
  update_policy : Option (List (String × PyVal))
  update_replace_policy : Option String

/-- The attribute names excluded from the `Properties` map
(base.py lines 119-126). -/
def metadataFields : List String :=
  ["depends_on", "condition", "metadata", "deletion_policy",
   "update_policy", "update_replace_policy"]

/-- The `Properties` construction loop of `to_dict`
(base.py lines 128-146). -/
def buildProperties (r : CFResource) : List (String × PyVal) :=
  r.props.foldl
    (fun acc p =>
      if p.2.isNull then acc
      else if p.1.startsWith "_" then acc
      else if p.1 ∈ metadataFields then acc
      else if (match p.2 with
               | .list l => l.isEmpty
               | .dict l => l.isEmpty
               | _ => false) then acc
      else
        let cf_name := match (r.propertyMappings.lookup p.1) with
          | some m => m
          | none => toCfName p.1
        acc ++ [(cf_name, serializeValue p.2)])
    []

/-- Python truthiness of an optional list-valued dataclass field
(`None` and `[]` are falsy). -/
def truthyOptList (o : Option (List String)) : Bool :=
  match o with
  | some l => !l.isEmpty
  | none => false

/-- Python truthiness of an optional string-valued dataclass field
(`None` and `""` are falsy). -/
def truthyOptStr (o : Option String) : Bool :=
  match o with
  | some s => !s.isEmpty
  | none => false

/-- Python truthiness of an optional dict-valued dataclass field
(`None` and `{}` are falsy). -/
def truthyOptDict (o : Option (List (String × PyVal))) : Bool :=
  match o with
  | some m => !m.isEmpty
  | none => false

/-- `if <truthy guard>: result[key] = value` — one conditional assignment
of an optional key in `to_dict` (base.py lines 153-165). -/
def entryIf (b : Bool) (key : String) (v : PyVal) : List (String × PyVal) :=
  if b then [(key, v)] else []

/-- `CloudFormationResource.to_dict` (base.py lines 106-167), the output
dict modelled as an insertion-ordered key/value list.  Each optional key
is appended exactly when the corresponding dataclass field is truthy,
with the value the source builds from that field
(`DependsOn` serializes the listed classes by `cls.__name__`). -/
def to_dict (r : CFResource) : List (String × PyVal) :=
  [("Type", PyVal.str r.resourceType), ("Properties", PyVal.dict (buildProperties r))]
    ++ entryIf (truthyOptList r.depends_on) "DependsOn"
        (PyVal.list ((r.depends_on.getD []).map PyVal.str))
    ++ entryIf (truthyOptStr r.condition) "Condition"
        (PyVal.str (r.condition.getD ""))
    ++ entryIf (truthyOptDict r.metadata) "Metadata"
        (PyVal.dict (r.metadata.getD []))
    ++ entryIf (truthyOptStr r.deletion_policy) "DeletionPolicy"
        (PyVal.str (r.deletion_policy.getD ""))
    ++ entryIf (truthyOptDict r.update_policy) "UpdatePolicy"
        (PyVal.dict (r.update_policy.getD []))
    ++ entryIf (truthyOptStr r.update_replace_policy) "UpdateReplacePolicy"
        (PyVal.str (r.update_replace_policy.getD ""))

theorem mem_keys_entryIf (b : Bool) (key : String) (v : PyVal) (x : String) :
    x ∈ (entryIf b key v).map Prod.fst ↔ (b = true ∧ x = key) := by
  cases b <;> simp [entryIf]

theorem mem_entryIf (b : Bool) (key : String) (v : PyVal) (kv : String × PyVal) :
    kv ∈ entryIf b key v ↔ (b = true ∧ kv = (key, v)) := by
  cases b <;> simp [entryIf]

/-- C9.  The serialized resource entry contains each of the optional keys
`DependsOn`, `Condition`, `Metadata`, `DeletionPolicy` exactly when the
corresponding field is truthy (absent fields are omitted entirely), and
none of those keys is ever paired with a null value. -/
theorem claim9_optional_keys_omit_if_absent (r : CFResource) :
    ("DependsOn" ∈ (to_dict r).map Prod.fst ↔ truthyOptList r.depends_on = true) ∧
    ("Condition" ∈ (to_dict r).map Prod.fst ↔ truthyOptStr r.condition = true) ∧
    ("Metadata" ∈ (to_dict r).map Prod.fst ↔ truthyOptDict r.metadata = true) ∧
    ("DeletionPolicy" ∈ (to_dict r).map Prod.fst ↔
      truthyOptStr r.deletion_policy = true) ∧
    (∀ kv ∈ to_dict r,
      kv.1 = "DependsOn" ∨ kv.1 = "Condition" ∨ kv.1 = "Metadata" ∨
        kv.1 = "DeletionPolicy" →
      kv.2.isNull = false) := by
  refine ⟨?_, ?_, ?_, ?_, ?_⟩
  · simp [to_dict, mem_entryIf, Prod.ext_iff]
  · simp [to_dict, mem_entryIf, Prod.ext_iff]
  · simp [to_dict, mem_entryIf, Prod.ext_iff]
  · simp [to_dict, mem_entryIf, Prod.ext_iff]
  · intro kv hkv _
    have base : ∀ (b : Bool) (k : String) (v : PyVal), kv ∈ entryIf b k v →
        v.isNull = false → kv.2.isNull = false := by
      intro b k v h hv
      obtain ⟨_, rfl⟩ := (mem_entryIf b k v kv).mp h
      exact hv
    rw [to_dict] at hkv
    rcases List.mem_append.mp hkv with h | h
    case inr => exact base _ _ _ h rfl
    rcases List.mem_append.mp h with h | h
    case inr => exact base _ _ _ h rfl
    rcases List.mem_append.mp h with h | h
    case inr => exact base _ _ _ h rfl
    rcases List.mem_append.mp h with h | h
    case inr => exact base _ _ _ h rfl
    rcases List.mem_append.mp h with h | h
    case inr => exact base _ _ _ h rfl
    rcases List.mem_append.mp h with h | h
    case inr => exact base _ _ _ h rfl
    simp only [List.mem_cons, List.not_mem_nil, or_false] at h
    rcases h with rfl | rfl <;> rfl

end WetwireAws.Base

namespace Wetwire.Registry

/-!
Embedding of `wetwire/registry.py`.  A wrapper class is modelled by its
name, its defining module, and the optional wrapped resource type that
`get_wrapped_type` would extract from its `resource` annotation.  Python
dicts are modelled as insertion-ordered association lists with
assign-updates-in-place semantics; the `Lock` only serializes the
operations modelled here, so it has no observable effect on the
sequential semantics.
-/

structure RegClass where
  name : String
  module : String
  wrappedType : Option String
deriving DecidableEq

/-- Python dict assignment `d[k] = v`: update in place if the key exists
(keeping its position), otherwise append. -/
def dictInsert {β : Type} (k : String) (v : β) :
    List (String × β) → List (String × β)
  | [] => [(k, v)]
  | (k', v') :: rest =>
    if k' = k then (k', v) :: rest else (k', v') :: dictInsert k v rest

/-- Python dict lookup `d.get(k)`. -/
def dictGet {β : Type} (k : String) : List (String × β) → Option β
  | [] => none
  | (k', v') :: rest => if k' = k then some v' else dictGet k rest

/-- `ResourceRegistry` state: `_resources` maps class name → class,
`_by_type` maps resource type → list of classes
(registry.py lines 41-46). -/
structure Registry where
  resources : List (String × RegClass)
  by_type : List (String × List RegClass)

def Registry.empty : Registry := ⟨[], []⟩

/-- `ResourceRegistry.register` (registry.py lines 48-74): the name index
is assigned (overwriting an existing entry with the same class name);
the type index, keyed on the explicit `resource_type` argument or the
wrapped type extracted from the class, always appends. -/
def register (reg : Registry) (wrapper_cls : RegClass)
    (resource_type : Option String) : Registry :=
  let resources' := dictInsert wrapper_cls.name wrapper_cls reg.resources
  let rt := match resource_type with
    | some t => some t
    | none => wrapper_cls.wrappedType
  match rt with
  | none => { resources := resources', by_type := reg.by_type }
  | some t =>
    { resources := resources',
      by_type := dictInsert t ((dictGet t reg.by_type).getD [] ++ [wrapper_cls])
        reg.by_type }

/-- `ResourceRegistry.get_all` (registry.py lines 76-96): the values of
`_resources` in insertion order, optionally filtered by module prefix. -/
def get_all (reg : Registry) (scope_package : Option String) : List RegClass :=
  let resources := reg.resources.map Prod.snd
  match scope_package with
  | some p => resources.filter (fun r => r.module.startsWith p)
  | none => resources

/-- `ResourceRegistry.get_by_type` (registry.py lines 98-113). -/
def get_by_type (reg : Registry) (resource_type : String) : List RegClass :=
  (dictGet resource_type reg.by_type).getD []

/-- `ResourceRegistry.get_by_name` (registry.py lines 115-126). -/
def get_by_name (reg : Registry) (name : String) : Option RegClass :=
  dictGet name reg.resources

/-- `ResourceRegistry.__len__` (registry.py lines 138-141). -/
def regLen (reg : Registry) : Nat := reg.resources.length

/-- C10.  Registering two classes with the same class name in sequence
(into a fresh registry, with explicit resource types): the name index
keeps only the second registration — `get_by_name` returns the later
class, `get_all` lists it once, and the length counts it once — while the
type index retains both registrations, as `[c1, c2]` under their shared
type (the same class twice when the identical class is registered twice),
or split across the two distinct types. -/
theorem claim10_reregistration_shadows_name_keeps_type
    (c1 c2 : RegClass) (t1 t2 : String) (hname : c1.name = c2.name) :
    get_by_name (register (register Registry.empty c1 (some t1)) c2 (some t2))
        c2.name = some c2 ∧
    get_all (register (register Registry.empty c1 (some t1)) c2 (some t2))
        none = [c2] ∧
    regLen (register (register Registry.empty c1 (some t1)) c2 (some t2)) = 1 ∧
    get_by_type (register (register Registry.empty c1 (some t1)) c2 (some t2))
        t1 = (if t2 = t1 then [c1, c2] else [c1]) ∧
    (t2 ≠ t1 →
      get_by_type (register (register Registry.empty c1 (some t1)) c2 (some t2))
        t2 = [c2]) := by
  have hr : register (register Registry.empty c1 (some t1)) c2 (some t2) =
      { resources := [(c1.name, c2)],
        by_type := if t2 = t1 then [(t1, [c1, c2])] else [(t1, [c1]), (t2, [c2])] } := by
    by_cases h : t2 = t1
    · simp [register, Registry.empty, dictInsert, dictGet, hname, h]
    · have h' : t1 ≠ t2 := fun hh => h hh.symm
      simp [register, Registry.empty, dictInsert, dictGet, hname, h, h']
  rw [hr]
  refine ⟨?_, ?_, ?_, ?_, ?_⟩
  · simp [get_by_name, dictGet, hname]
  · by_cases h : t2 = t1 <;> simp [get_all, h]
  · by_cases h : t2 = t1 <;> simp [regLen, h]
  · by_cases h : t2 = t1 <;> simp [get_by_type, dictGet, h]
  · intro h
    have h' : t1 ≠ t2 := fun hh => h hh.symm
    simp [get_by_type, dictGet, h, h']

/-- Witness for C10 at a concrete pair of same-named classes sharing a
resource type: the identical class registered twice appears twice in the
type index. -/
theorem claim10_witness :
    get_by_name (register (register Registry.empty ⟨"MyVPC", "m", none⟩ (some "VPC"))
        ⟨"MyVPC", "m", none⟩ (some "VPC")) "MyVPC" = some ⟨"MyVPC", "m", none⟩ ∧
    get_all (register (register Registry.empty ⟨"MyVPC", "m", none⟩ (some "VPC"))
        ⟨"MyVPC", "m", none⟩ (some "VPC")) none = [⟨"MyVPC", "m", none⟩] ∧
    regLen (register (register Registry.empty ⟨"MyVPC", "m", none⟩ (some "VPC"))
        ⟨"MyVPC", "m", none⟩ (some "VPC")) = 1 ∧
    get_by_type (register (register Registry.empty ⟨"MyVPC", "m", none⟩ (some "VPC"))
        ⟨"MyVPC", "m", none⟩ (some "VPC")) "VPC" =
      [⟨"MyVPC", "m", none⟩, ⟨"MyVPC", "m", none⟩] := by
  have h := claim10_reregistration_shadows_name_keeps_type
    ⟨"MyVPC", "m", none⟩ ⟨"MyVPC", "m", none⟩ "VPC" "VPC" rfl
  refine ⟨h.1, h.2.1, h.2.2.1, ?_⟩
  have h4 := h.2.2.2.1
  simpa using h4

end Wetwire.Registry

namespace WetwireAws.Topology

open Wetwire.Registry (dictGet)

/-!
Embedding of `wetwire_aws/importer/ir.py` (the fields consumed by
`topology.py`) and of `wetwire_aws/importer/codegen/topology.py`.

Python dynamic values inside IR properties are modelled by `IRValue`;
`IRIntrinsic.args` (str, list/tuple, dict, or scalar) is itself an
`IRValue`.  Dicts are insertion-ordered association lists.  The pattern
maps built by `build_name_pattern_map` / `build_arn_pattern_map`
(`codegen/context.py`, not part of the sources) are taken as explicit
arguments, exactly as `find_resource_dependencies` and
`order_scc_resources` accept them.
-/

/-- `IntrinsicType` (ir.py lines 32-61). -/
inductive IntrinsicType where
  | ref | getAtt | sub | join | select | getAZs | condIf | equals | andOp
  | orOp | notOp | condition | findInMap | base64 | cidr | importValue
  | splitOp | transformOp | valueOf
deriving DecidableEq

/-- Python runtime values occurring in parsed IR properties.  An
`IRIntrinsic(type, args)` is `intr type args` with the Python str /
list / tuple / dict argument encoded as an `IRValue`. -/
inductive IRValue where
  | str (s : String)
  | num (n : Int)
  | boolv (b : Bool)
  | nullv
  | intr (t : IntrinsicType) (args : IRValue)
  | vlist (items : List IRValue)
  | vdict (entries : List (String × IRValue))

/-- `IRProperty` (ir.py lines 100-122). -/
structure IRProperty where
  cf_name : String
  python_name : String
  value : IRValue

/-- `IRResource` (ir.py lines 166-219), restricted to the fields
`topology.py` reads. -/
structure IRResource where
  logical_id : String
  resource_type : String
  properties : List (String × IRProperty)
  depends_on : List String

/-- `IRTemplate` (ir.py lines 302-341), restricted to the fields
`topology.py` reads: parameter names (only key membership is consulted),
resources, and the reference graph populated during parsing. -/
structure IRTemplate where
  parameters : List String
  resources : List (String × IRResource)
  reference_graph : List (String × List String)

/-- `set.add` on a Python set modelled as a duplicate-free list. -/
def addDep (d : String) (deps : List String) : List String :=
  if deps.contains d then deps else deps ++ [d]

/-- `str.startswith`, computed on code points. -/
def pyStartswith (s p : String) : Bool :=
  p.toList.isPrefixOf s.toList

/-- `re.findall(r"\$\x7b([^\x7d]+)\x7d", template_str)`: every
`$\x7bName\x7d` placeholder content, scanning left to right. -/
def findVarRefsAux : List Char → List String
  | [] => []
  | '$' :: '\x7b' :: rest =>
    let content := rest.takeWhile (fun ch => ch ≠ '\x7d')
    if content.isEmpty ∨ ¬ rest.contains '\x7d' then findVarRefsAux ('\x7b' :: rest)
    else content.asString :: findVarRefsAux (rest.drop (content.length + 1))
  | _ :: rest => findVarRefsAux rest
termination_by l => l.length
decreasing_by
  all_goals simp_wf
  all_goals omega

/-- Placeholder extraction on a template string. -/
def findVarRefs (s : String) : List String :=
  findVarRefsAux s.toList

/-- Extraction of the Sub template string (topology.py lines 156-164):
a string argument, or the first element of a list/tuple argument,
guarded by Python truthiness (`if template_str:`). -/
def subTemplateStr : IRValue → Option String
  | .str s => if s.isEmpty then none else some s
  | .vlist (.str s :: _) => if s.isEmpty then none else some s
  | _ => none

/-- `all(v in template.parameters for v in non_pseudo_vars)` where
`non_pseudo_vars` drops the `AWS::` pseudo-parameter references
(topology.py lines 165-167). -/
def allNonPseudoAreParams (params : List String) (template_str : String) : Bool :=
  ((findVarRefs template_str).filter (fun v => !pyStartswith v "AWS::")).all
    (fun v => params.contains v)

/-- The dependency (if any) recovered from one Sub template string
(topology.py lines 169-177): a name-pattern hit wins unconditionally, an
ARN-pattern hit only when not all non-pseudo placeholders are declared
parameters, and a self-reference is never recorded. -/
def subPatternHit (nmap : List (String × String))
    (amap : List (String × (String × String))) (params : List String)
    (current : String) (template_str : String) : Option String :=
  match dictGet template_str nmap with
  | some ref_target => if ref_target ≠ current then some ref_target else none
  | none =>
    match dictGet template_str amap with
    | some (ref_target, _) =>
      if ¬ allNonPseudoAreParams params template_str ∧ ref_target ≠ current then
        some ref_target
      else none
    | none => none

/-- The Sub-handling block of `_find_sub_in_value` (topology.py lines
156-177): when the intrinsic is a Sub, record the recovered dependency
(if any) of its template string. -/
def subDepsStep (nmap : List (String × String))
    (amap : List (String × (String × String))) (current : String)
    (params : List String) (t : IntrinsicType) (args : IRValue)
    (deps : List String) : List String :=
  if t = IntrinsicType.sub then
    match subTemplateStr args with
    | some ts =>
      match subPatternHit nmap amap params current ts with
      | some tgt => addDep tgt deps
      | none => deps
    | none => deps
  else deps

mutual

/-- `_find_sub_in_value` (topology.py lines 146-198), in accumulator
style: the `deps` set threaded through the recursive traversal. -/
def findSubInValue (nmap : List (String × String))
    (amap : List (String × (String × String))) (current : String)
    (params : List String) : IRValue → List String → List String
  | .intr t args, deps =>
    let deps1 := subDepsStep nmap amap current params t args deps
    match args with
    | .vlist items => findSubInList nmap amap current params items deps1
    | .vdict entries => findSubInDict nmap amap current params entries deps1
    | .str _ => deps1
    | .num _ => deps1
    | .boolv _ => deps1
    | .nullv => deps1
    | .intr _ _ => deps1
  | .vdict entries, deps => findSubInDict nmap amap current params entries deps
  | .vlist items, deps => findSubInList nmap amap current params items deps
  | .str _, deps => deps
  | .num _, deps => deps
  | .boolv _, deps => deps
  | .nullv, deps => deps

def findSubInList (nmap : List (String × String))
    (amap : List (String × (String × String))) (current : String)
    (params : List String) : List IRValue → List String → List String
  | [], deps => deps
  | v :: vs, deps =>
    findSubInList nmap amap current params vs
      (findSubInValue nmap amap current params v deps)

def findSubInDict (nmap : List (String × String))
    (amap : List (String × (String × String))) (current : String)
    (params : List String) : List (String × IRValue) → List String → List String
  | [], deps => deps
  | p :: ps, deps =>
    findSubInDict nmap amap current params ps
      (findSubInValue nmap amap current params p.2 deps)

end

/-- `_find_sub_pattern_refs` (topology.py lines 130-143): scan every
property value of the resource. -/
def findSubInProps (nmap : List (String × String))
    (amap : List (String × (String × String))) (current : String)
    (params : List String) (props : List (String × IRProperty))
    (deps : List String) : List String :=
  props.foldl (fun acc p => findSubInValue nmap amap current params p.2.value acc) deps

/-- `template.reference_graph.get(resource_id, [])`. -/
def refGraphGet (tmpl : IRTemplate) (rid : String) : List String :=
  (dictGet rid tmpl.reference_graph).getD []

/-- `resource_id in template.resources`. -/
def isResourceKey (tmpl : IRTemplate) (rid : String) : Bool :=
  (dictGet rid tmpl.resources).isSome

/-- Guarded accumulation shared by the reference-graph loop
(topology.py lines 113-115) and the `depends_on` loop (lines 123-125):
a target is added only when it is a resource of the template and not the
resource itself. -/
def addExistingNonSelf (tmpl : IRTemplate) (resource_id : String)
    (l : List String) (deps : List String) : List String :=
  l.foldl
    (fun acc t => if isResourceKey tmpl t ∧ t ≠ resource_id then addDep t acc else acc)
    deps

/-- `find_resource_dependencies` (topology.py lines 104-127). -/
def find_resource_dependencies (tmpl : IRTemplate) (resource_id : String)
    (nmap : List (String × String))
    (amap : List (String × (String × String))) : List String :=
  let deps := addExistingNonSelf tmpl resource_id (refGraphGet tmpl resource_id) []
  match dictGet resource_id tmpl.resources with
  | none => deps
  | some res =>
    let deps1 := findSubInProps nmap amap resource_id tmpl.parameters res.properties deps
    addExistingNonSelf tmpl resource_id res.depends_on deps1

/-- Code-point comparison of strings, Python's `str` ordering
(used by `sorted` on the `(dep_count, LogicalId)` key tuples). -/
def charListLe : List Char → List Char → Bool
  | [], _ => true
  | _ :: _, [] => false
  | a :: as, b :: bs =>
    if a.toNat < b.toNat then true
    else if b.toNat < a.toNat then false
    else charListLe as bs

def strLe (a b : String) : Bool := charListLe a.toList b.toList

/-- The `(dep_counts[r], r)` sort key order of `order_scc_resources`
(topology.py line 223): ascending in-SCC dependency count, ties broken
by LogicalId. -/
def sccKeyLe (counts : String → Nat) (a b : String) : Bool :=
  if counts a < counts b then true
  else if counts b < counts a then false
  else strLe a b

/-- `dep_counts[r]` (topology.py lines 215-221): the number of in-SCC
dependencies of `r`. -/
def sccDepCount (scc : List String) (tmpl : IRTemplate)
    (nmap : List (String × String)) (amap : List (String × (String × String)))
    (r : String) : Nat :=
  ((find_resource_dependencies tmpl r nmap amap).filter
    (fun d => scc.contains d)).length

/-- `order_scc_resources` (topology.py lines 201-223):
`sorted(scc, key=lambda r: (dep_counts[r], r))`.  Python's `sorted` is a
stable sort; stable sorting under a total preorder has a unique result,
so it is modelled by `List.insertionSort` (also stable) over the key
order. -/
def order_scc_resources (scc : List String) (tmpl : IRTemplate)
    (nmap : List (String × String))
    (amap : List (String × (String × String))) : List String :=
  scc.insertionSort (fun a b => sccKeyLe (sccDepCount scc tmpl nmap amap) a b = true)

end WetwireAws.Topology

namespace WetwireAws.Topology

theorem charListLe_total : ∀ as bs, charListLe as bs = true ∨ charListLe bs as = true := by
  intro as
  induction as with
  | nil => intro bs; left; rfl
  | cons a as ih =>
    intro bs
    cases bs with
    | nil => right; rfl
    | cons b bs' =>
      rcases Nat.lt_trichotomy a.toNat b.toNat with h | h | h
      · left; simp [charListLe, h]
      · have hab : ¬ a.toNat < b.toNat := by omega
        have hba : ¬ b.toNat < a.toNat := by omega
        rcases ih bs' with h' | h'
        · left; simp [charListLe, hab, hba, h']
        · right; simp [charListLe, hab, hba, h']
      · right; simp [charListLe, h]

theorem charListLe_trans : ∀ as bs cs, charListLe as bs = true →
    charListLe bs cs = true → charListLe as cs = true := by
  intro as
  induction as with
  | nil => intro bs cs _ _; rfl
  | cons a as ih =>
    intro bs cs hab hbc
    cases bs with
    | nil => simp [charListLe] at hab
    | cons b bs' =>
      cases cs with
      | nil => simp [charListLe] at hbc
      | cons c cs' =>
        rcases Nat.lt_trichotomy a.toNat b.toNat with h1 | h1 | h1
        · rcases Nat.lt_trichotomy b.toNat c.toNat with h2 | h2 | h2
          · simp [charListLe, Nat.lt_trans h1 h2]
          · simp [charListLe, h2 ▸ h1]
          · simp [charListLe, Nat.lt_asymm h2, h2] at hbc
        · rcases Nat.lt_trichotomy b.toNat c.toNat with h2 | h2 | h2
          · simp [charListLe, h1 ▸ h2]
          · have hac : a.toNat = c.toNat := h1.trans h2
            have h3 : ¬ a.toNat < c.toNat := by omega
            have h4 : ¬ c.toNat < a.toNat := by omega
            have h5 : ¬ a.toNat < b.toNat := by omega
            have h6 : ¬ b.toNat < a.toNat := by omega
            have h7 : ¬ b.toNat < c.toNat := by omega
            have h8 : ¬ c.toNat < b.toNat := by omega
            simp only [charListLe, if_neg h5, if_neg h6] at hab
            simp only [charListLe, if_neg h7, if_neg h8] at hbc
            simp only [charListLe, if_neg h3, if_neg h4]
            exact ih bs' cs' hab hbc
          · simp [charListLe, Nat.lt_asymm h2, h2] at hbc
        · simp [charListLe, Nat.lt_asymm h1, h1] at hab

theorem strLe_total (a b : String) : strLe a b = true ∨ strLe b a = true :=
  charListLe_total a.toList b.toList

theorem strLe_trans (a b c : String) (h1 : strLe a b = true) (h2 : strLe b c = true) :
    strLe a c = true :=
  charListLe_trans a.toList b.toList c.toList h1 h2

theorem sccKeyLe_total (counts : String → Nat) (a b : String) :
    sccKeyLe counts a b = true ∨ sccKeyLe counts b a = true := by
  rcases Nat.lt_trichotomy (counts a) (counts b) with h | h | h
  · left; simp [sccKeyLe, h]
  · have h1 : ¬ counts a < counts b := by omega
    have h2 : ¬ counts b < counts a := by omega
    rcases strLe_total a b with h' | h'
    · left; simp [sccKeyLe, h1, h2, h']
    · right; simp [sccKeyLe, h1, h2, h']
  · right; simp [sccKeyLe, h]

theorem sccKeyLe_trans (counts : String → Nat) (a b c : String)
    (hab : sccKeyLe counts a b = true) (hbc : sccKeyLe counts b c = true) :
    sccKeyLe counts a c = true := by
  rcases Nat.lt_trichotomy (counts a) (counts b) with h1 | h1 | h1
  · rcases Nat.lt_trichotomy (counts b) (counts c) with h2 | h2 | h2
    · simp [sccKeyLe, Nat.lt_trans h1 h2]
    · simp [sccKeyLe, h2 ▸ h1]
    · simp [sccKeyLe, Nat.lt_asymm h2, h2] at hbc
  · rcases Nat.lt_trichotomy (counts b) (counts c) with h2 | h2 | h2
    · simp [sccKeyLe, h1 ▸ h2]
    · have hac : counts a = counts c := h1.trans h2
      have h3 : ¬ counts a < counts c := by omega
      have h4 : ¬ counts c < counts a := by omega
      have h5 : ¬ counts a < counts b := by omega
      have h6 : ¬ counts b < counts a := by omega
      have h7 : ¬ counts b < counts c := by omega
      have h8 : ¬ counts c < counts b := by omega
      simp only [sccKeyLe, if_neg h5, if_neg h6] at hab
      simp only [sccKeyLe, if_neg h7, if_neg h8] at hbc
      simp only [sccKeyLe, if_neg h3, if_neg h4]
      exact strLe_trans a b c hab hbc
    · simp [sccKeyLe, Nat.lt_asymm h2, h2] at hbc
  · simp [sccKeyLe, Nat.lt_asymm h1, h1] at hab

/-- A stub resource with no properties and no explicit `DependsOn`. -/
def resStub (rid ty : String) : IRResource :=
  { logical_id := rid, resource_type := ty, properties := [], depends_on := [] }

/-- Scenario B template: `A` and `B` reference each other (via
`Attr(_, "Arn")` nodes recorded in the reference graph during parsing),
forming a two-node cycle. -/
def tmplB : IRTemplate :=
  { parameters := []
    resources := [("A", resStub "A" "AWS::S3::Bucket"), ("B", resStub "B" "AWS::S3::Bucket")]
    reference_graph := [("A", ["B"]), ("B", ["A"])] }

/-- C4.  `order_scc_resources` returns a permutation of the SCC sorted by
the `(in-SCC dependency count, LogicalId)` key — ascending dependency
count, ties broken by ascending LogicalId; and on the Scenario B
two-node cycle (each of `A`, `B` depending only on the other, SCC listed
as `[B, A]`) it returns `[A, B]` with `A` first. -/
theorem claim4_order_scc_resources :
    (∀ (scc : List String) (tmpl : IRTemplate)
      (nmap : List (String × String)) (amap : List (String × (String × String))),
      (order_scc_resources scc tmpl nmap amap).Perm scc ∧
      (order_scc_resources scc tmpl nmap amap).Pairwise
        (fun a b => sccKeyLe (sccDepCount scc tmpl nmap amap) a b = true)) ∧
    order_scc_resources ["B", "A"] tmplB [] [] = ["A", "B"] := by
  constructor
  · intro scc tmpl nmap amap
    constructor
    · exact List.perm_insertionSort _ _
    · letI : IsTotal String
          (fun a b => sccKeyLe (sccDepCount scc tmpl nmap amap) a b = true) :=
        ⟨fun a b => sccKeyLe_total _ a b⟩
      letI : IsTrans String
          (fun a b => sccKeyLe (sccDepCount scc tmpl nmap amap) a b = true) :=
        ⟨fun a b c => sccKeyLe_trans _ a b c⟩
      exact List.sorted_insertionSort _ _
  · rfl

end WetwireAws.Topology

namespace WetwireAws.Topology

open Wetwire.Registry (dictGet)

theorem mem_addDep (d : String) (deps : List String) (x : String) :
    x ∈ addDep d deps ↔ x ∈ deps ∨ x = d := by
  by_cases h : deps.contains d
  · have hd : d ∈ deps := by simpa [List.elem_iff] using h
    rw [addDep, if_pos h]
    constructor
    · exact Or.inl
    · rintro (hx | rfl)
      · exact hx
      · exact hd
  · rw [addDep, if_neg h]
    simp [List.mem_append]

theorem dictGet_mem {β : Type} (k : String) (m : List (String × β)) (v : β)
    (h : dictGet k m = some v) : (k, v) ∈ m := by
  induction m with
  | nil => simp [Wetwire.Registry.dictGet] at h
  | cons p rest ih =>
    obtain ⟨k', v'⟩ := p
    rw [Wetwire.Registry.dictGet] at h
    by_cases hk : k' = k
    · rw [if_pos hk] at h
      injection h with h
      subst hk; subst h
      exact List.mem_cons_self _ _
    · rw [if_neg hk] at h
      exact List.mem_cons_of_mem _ (ih h)

theorem subPatternHit_ne_current (nmap : List (String × String))
    (amap : List (String × (String × String))) (params : List String)
    (current ts tgt : String)
    (h : subPatternHit nmap amap params current ts = some tgt) : tgt ≠ current := by
  rw [subPatternHit] at h
  split at h
  · split at h
    · rename_i hr
      injection h with h
      subst h; exact hr
    · cases h
  · split at h
    · split at h
      · rename_i hc
        injection h with h
        subst h; exact hc.2
      · cases h
    · cases h

theorem subPatternHit_provenance (nmap : List (String × String))
    (amap : List (String × (String × String))) (params : List String)
    (current ts tgt : String)
    (h : subPatternHit nmap amap params current ts = some tgt) :
    (∃ k, dictGet k nmap = some tgt) ∨
    (∃ k attr, dictGet k amap = some (tgt, attr)) := by
  rw [subPatternHit] at h
  split at h
  · rename_i r h1
    split at h
    · injection h with h
      subst h
      exact Or.inl ⟨ts, h1⟩
    · cases h
  · rename_i h1
    split at h
    · rename_i r attr h2
      split at h
      · injection h with h
        subst h
        exact Or.inr ⟨ts, attr, h2⟩
      · cases h
    · cases h

theorem mem_subDepsStep (nmap : List (String × String))
    (amap : List (String × (String × String))) (current : String)
    (params : List String) (t : IntrinsicType) (args : IRValue)
    (deps : List String) (x : String) :
    x ∈ subDepsStep nmap amap current params t args deps ↔
    x ∈ deps ∨ (t = IntrinsicType.sub ∧ ∃ ts, subTemplateStr args = some ts ∧
      subPatternHit nmap amap params current ts = some x) := by
  rw [subDepsStep]
  by_cases ht : t = IntrinsicType.sub
  · rw [if_pos ht]
    split
    · rename_i ts hts
      split
      · rename_i tgt hhit
        rw [mem_addDep]
        constructor
        · rintro (h | rfl)
          · exact Or.inl h
          · exact Or.inr ⟨ht, ts, hts, hhit⟩
        · rintro (h | ⟨_, ts', hts', hhit'⟩)
          · exact Or.inl h
          · rw [hts] at hts'
            injection hts' with h'
            subst h'
            rw [hhit] at hhit'
            injection hhit' with h'
            exact Or.inr h'.symm
      · rename_i hhit
        constructor
        · exact fun h => Or.inl h
        · rintro (h | ⟨_, ts', hts', hhit'⟩)
          · exact h
          · rw [hts] at hts'
            injection hts' with h'
            subst h'
            rw [hhit] at hhit'
            cases hhit'
    · rename_i hts
      constructor
      · exact fun h => Or.inl h
      · rintro (h | ⟨_, ts', hts', _⟩)
        · exact h
        · rw [hts] at hts'
          cases hts'
  · rw [if_neg ht]
    constructor
    · exact fun h => Or.inl h
    · rintro (h | ⟨h', _⟩)
      · exact h
      · exact absurd h' ht

/-- `SubOccurs ts v` holds exactly when the traversal of
`_find_sub_in_value` starting at `v` reaches a Sub intrinsic whose
extracted template string is `ts`: at the node itself, inside the
list/tuple or dict arguments of any intrinsic, or inside a plain list or
dict value. -/
inductive SubOccurs (ts : String) : IRValue → Prop where
  | atSub (args : IRValue) (h : subTemplateStr args = some ts) :
      SubOccurs ts (.intr IntrinsicType.sub args)
  | inArgsList (t : IntrinsicType) (items : List IRValue) (v : IRValue)
      (hv : v ∈ items) (h : SubOccurs ts v) : SubOccurs ts (.intr t (.vlist items))
  | inArgsDict (t : IntrinsicType) (entries : List (String × IRValue))
      (p : String × IRValue) (hp : p ∈ entries) (h : SubOccurs ts p.2) :
      SubOccurs ts (.intr t (.vdict entries))
  | inList (items : List IRValue) (v : IRValue) (hv : v ∈ items)
      (h : SubOccurs ts v) : SubOccurs ts (.vlist items)
  | inDict (entries : List (String × IRValue)) (p : String × IRValue)
      (hp : p ∈ entries) (h : SubOccurs ts p.2) : SubOccurs ts (.vdict entries)

end WetwireAws.Topology

namespace WetwireAws.Topology

open Wetwire.Registry (dictGet)

mutual

/-- Membership characterization of the `_find_sub_in_value` traversal:
the accumulated set gains exactly the pattern-map hits of the Sub
template strings occurring in the value. -/
theorem mem_findSubInValue (nmap : List (String × String))
    (amap : List (String × (String × String))) (current : String)
    (params : List String) (v : IRValue) :
    ∀ (deps : List String) (x : String),
      x ∈ findSubInValue nmap amap current params v deps ↔
      x ∈ deps ∨ ∃ ts, SubOccurs ts v ∧
        subPatternHit nmap amap params current ts = some x := by
  intro deps x
  cases v with
  | str s =>
    rw [findSubInValue]
    constructor
    · exact fun h => Or.inl h
    · rintro (h | ⟨ts, hocc, _⟩)
      · exact h
      · cases hocc
  | num n =>
    rw [findSubInValue]
    constructor
    · exact fun h => Or.inl h
    · rintro (h | ⟨ts, hocc, _⟩)
      · exact h
      · cases hocc
  | boolv b =>
    rw [findSubInValue]
    constructor
    · exact fun h => Or.inl h
    · rintro (h | ⟨ts, hocc, _⟩)
      · exact h
      · cases hocc
  | nullv =>
    rw [findSubInValue]
    constructor
    · exact fun h => Or.inl h
    · rintro (h | ⟨ts, hocc, _⟩)
      · exact h
      · cases hocc
  | vlist items =>
    rw [findSubInValue, mem_findSubInList nmap amap current params items]
    constructor
    · rintro (h | ⟨ts, v', hv', hocc, hhit⟩)
      · exact Or.inl h
      · exact Or.inr ⟨ts, SubOccurs.inList items v' hv' hocc, hhit⟩
    · rintro (h | ⟨ts, hocc, hhit⟩)
      · exact Or.inl h
      · cases hocc with
        | inList items v' hv' h' => exact Or.inr ⟨ts, v', hv', h', hhit⟩
  | vdict entries =>
    rw [findSubInValue, mem_findSubInDict nmap amap current params entries]
    constructor
    · rintro (h | ⟨ts, p, hp, hocc, hhit⟩)
      · exact Or.inl h
      · exact Or.inr ⟨ts, SubOccurs.inDict entries p hp hocc, hhit⟩
    · rintro (h | ⟨ts, hocc, hhit⟩)
      · exact Or.inl h
      · cases hocc with
        | inDict entries p hp h' => exact Or.inr ⟨ts, p, hp, h', hhit⟩
  | intr t args =>
    cases args with
    | vlist items =>
      rw [findSubInValue, mem_findSubInList nmap amap current params items,
        mem_subDepsStep]
      constructor
      · rintro ((h | ⟨ht, ts, hts, hhit⟩) | ⟨ts, v', hv', hocc, hhit⟩)
        · exact Or.inl h
        · subst ht
          exact Or.inr ⟨ts, SubOccurs.atSub _ hts, hhit⟩
        · exact Or.inr ⟨ts, SubOccurs.inArgsList t items v' hv' hocc, hhit⟩
      · rintro (h | ⟨ts, hocc, hhit⟩)
        · exact Or.inl (Or.inl h)
        · cases hocc with
          | atSub args h' => exact Or.inl (Or.inr ⟨rfl, ts, h', hhit⟩)
          | inArgsList t items v' hv' h' => exact Or.inr ⟨ts, v', hv', h', hhit⟩
    | vdict entries =>
      rw [findSubInValue, mem_findSubInDict nmap amap current params entries,
        mem_subDepsStep]
      constructor
      · rintro ((h | ⟨ht, ts, hts, hhit⟩) | ⟨ts, p, hp, hocc, hhit⟩)
        · exact Or.inl h
        · subst ht
          exact Or.inr ⟨ts, SubOccurs.atSub _ hts, hhit⟩
        · exact Or.inr ⟨ts, SubOccurs.inArgsDict t entries p hp hocc, hhit⟩
      · rintro (h | ⟨ts, hocc, hhit⟩)
        · exact Or.inl (Or.inl h)
        · cases hocc with
          | atSub args h' => exact Or.inl (Or.inr ⟨rfl, ts, h', hhit⟩)
          | inArgsDict t entries p hp h' => exact Or.inr ⟨ts, p, hp, h', hhit⟩
    | str s =>
      rw [findSubInValue, mem_subDepsStep]
      constructor
      · rintro (h | ⟨ht, ts, hts, hhit⟩)
        · exact Or.inl h
        · subst ht
          exact Or.inr ⟨ts, SubOccurs.atSub _ hts, hhit⟩
      · rintro (h | ⟨ts, hocc, hhit⟩)
        · exact Or.inl h
        · cases hocc with
          | atSub args h' => exact Or.inr ⟨rfl, ts, h', hhit⟩
    | num n =>
      rw [findSubInValue, mem_subDepsStep]
      constructor
      · rintro (h | ⟨ht, ts, hts, hhit⟩)
        · exact Or.inl h
        · subst ht
          exact Or.inr ⟨ts, SubOccurs.atSub _ hts, hhit⟩
      · rintro (h | ⟨ts, hocc, hhit⟩)
        · exact Or.inl h
        · cases hocc with
          | atSub args h' => exact Or.inr ⟨rfl, ts, h', hhit⟩
    | boolv b =>
      rw [findSubInValue, mem_subDepsStep]
      constructor
      · rintro (h | ⟨ht, ts, hts, hhit⟩)
        · exact Or.inl h
        · subst ht
          exact Or.inr ⟨ts, SubOccurs.atSub _ hts, hhit⟩
      · rintro (h | ⟨ts, hocc, hhit⟩)
        · exact Or.inl h
        · cases hocc with
          | atSub args h' => exact Or.inr ⟨rfl, ts, h', hhit⟩
    | nullv =>
      rw [findSubInValue, mem_subDepsStep]
      constructor
      · rintro (h | ⟨ht, ts, hts, hhit⟩)
        · exact Or.inl h
        · subst ht
          exact Or.inr ⟨ts, SubOccurs.atSub _ hts, hhit⟩
      · rintro (h | ⟨ts, hocc, hhit⟩)
        · exact Or.inl h
        · cases hocc with
          | atSub args h' => exact Or.inr ⟨rfl, ts, h', hhit⟩
    | intr t' args' =>
      rw [findSubInValue, mem_subDepsStep]
      constructor
      · rintro (h | ⟨ht, ts, hts, hhit⟩)
        · exact Or.inl h
        · subst ht
          exact Or.inr ⟨ts, SubOccurs.atSub _ hts, hhit⟩
      · rintro (h | ⟨ts, hocc, hhit⟩)
        · exact Or.inl h
        · cases hocc with
          | atSub args h' => exact Or.inr ⟨rfl, ts, h', hhit⟩

theorem mem_findSubInList (nmap : List (String × String))
    (amap : List (String × (String × String))) (current : String)
    (params : List String) (l : List IRValue) :
    ∀ (deps : List String) (x : String),
      x ∈ findSubInList nmap amap current params l deps ↔
      x ∈ deps ∨ ∃ ts v, v ∈ l ∧ SubOccurs ts v ∧
        subPatternHit nmap amap params current ts = some x := by
  intro deps x
  cases l with
  | nil =>
    rw [findSubInList]
    simp
  | cons v vs =>
    rw [findSubInList, mem_findSubInList nmap amap current params vs,
      mem_findSubInValue nmap amap current params v]
    constructor
    · rintro ((h | ⟨ts, hocc, hhit⟩) | ⟨ts, v', hv', hocc, hhit⟩)
      · exact Or.inl h
      · exact Or.inr ⟨ts, v, List.mem_cons_self _ _, hocc, hhit⟩
      · exact Or.inr ⟨ts, v', List.mem_cons_of_mem _ hv', hocc, hhit⟩
    · rintro (h | ⟨ts, v', hv', hocc, hhit⟩)
      · exact Or.inl (Or.inl h)
      · rcases List.mem_cons.mp hv' with rfl | hv'
        · exact Or.inl (Or.inr ⟨ts, hocc, hhit⟩)
        · exact Or.inr ⟨ts, v', hv', hocc, hhit⟩

theorem mem_findSubInDict (nmap : List (String × String))
    (amap : List (String × (String × String))) (current : String)
    (params : List String) (l : List (String × IRValue)) :
    ∀ (deps : List String) (x : String),
      x ∈ findSubInDict nmap amap current params l deps ↔
      x ∈ deps ∨ ∃ ts p, p ∈ l ∧ SubOccurs ts p.2 ∧
        subPatternHit nmap amap params current ts = some x := by
  intro deps x
  cases l with
  | nil =>
    rw [findSubInDict]
    simp
  | cons p ps =>
    rw [findSubInDict, mem_findSubInDict nmap amap current params ps,
      mem_findSubInValue nmap amap current params p.2]
    constructor
    · rintro ((h | ⟨ts, hocc, hhit⟩) | ⟨ts, p', hp', hocc, hhit⟩)
      · exact Or.inl h
      · exact Or.inr ⟨ts, p, List.mem_cons_self _ _, hocc, hhit⟩
      · exact Or.inr ⟨ts, p', List.mem_cons_of_mem _ hp', hocc, hhit⟩
    · rintro (h | ⟨ts, p', hp', hocc, hhit⟩)
      · exact Or.inl (Or.inl h)
      · rcases List.mem_cons.mp hp' with rfl | hp'
        · exact Or.inl (Or.inr ⟨ts, hocc, hhit⟩)
        · exact Or.inr ⟨ts, p', hp', hocc, hhit⟩

end

end WetwireAws.Topology

namespace WetwireAws.Topology

open Wetwire.Registry (dictGet)

theorem mem_addExistingNonSelf (tmpl : IRTemplate) (rid : String)
    (l : List String) :
    ∀ (deps : List String) (x : String),
      x ∈ addExistingNonSelf tmpl rid l deps ↔
      x ∈ deps ∨ (x ∈ l ∧ isResourceKey tmpl x = true ∧ x ≠ rid) := by
  induction l with
  | nil =>
    intro deps x
    simp [addExistingNonSelf]
  | cons t ts ih =>
    intro deps x
    have hstep : addExistingNonSelf tmpl rid (t :: ts) deps =
        addExistingNonSelf tmpl rid ts
          (if isResourceKey tmpl t ∧ t ≠ rid then addDep t deps else deps) := rfl
    rw [hstep, ih]
    by_cases hg : isResourceKey tmpl t ∧ t ≠ rid
    · rw [if_pos hg, mem_addDep]
      constructor
      · rintro ((h | rfl) | ⟨h1, h2⟩)
        · exact Or.inl h
        · exact Or.inr ⟨List.mem_cons_self _ _, hg.1, hg.2⟩
        · exact Or.inr ⟨List.mem_cons_of_mem _ h1, h2⟩
      · rintro (h | ⟨h1, h2⟩)
        · exact Or.inl (Or.inl h)
        · rcases List.mem_cons.mp h1 with rfl | h1
          · exact Or.inl (Or.inr rfl)
          · exact Or.inr ⟨h1, h2⟩
    · rw [if_neg hg]
      constructor
      · rintro (h | ⟨h1, h2⟩)
        · exact Or.inl h
        · exact Or.inr ⟨List.mem_cons_of_mem _ h1, h2⟩
      · rintro (h | ⟨h1, h2⟩)
        · exact Or.inl h
        · rcases List.mem_cons.mp h1 with rfl | h1
          · exact absurd ⟨h2.1, h2.2⟩ hg
          · exact Or.inr ⟨h1, h2⟩

theorem mem_findSubInProps (nmap : List (String × String))
    (amap : List (String × (String × String))) (current : String)
    (params : List String) (props : List (String × IRProperty)) :
    ∀ (deps : List String) (x : String),
      x ∈ findSubInProps nmap amap current params props deps ↔
      x ∈ deps ∨ ∃ p ∈ props, ∃ ts, SubOccurs ts p.2.value ∧
        subPatternHit nmap amap params current ts = some x := by
  induction props with
  | nil =>
    intro deps x
    simp [findSubInProps]
  | cons p ps ih =>
    intro deps x
    have hstep : findSubInProps nmap amap current params (p :: ps) deps =
        findSubInProps nmap amap current params ps
          (findSubInValue nmap amap current params p.2.value deps) := rfl
    rw [hstep, ih, mem_findSubInValue]
    constructor
    · rintro ((h | ⟨ts, hocc, hhit⟩) | ⟨p', hp', ts, hocc, hhit⟩)
      · exact Or.inl h
      · exact Or.inr ⟨p, List.mem_cons_self _ _, ts, hocc, hhit⟩
      · exact Or.inr ⟨p', List.mem_cons_of_mem _ hp', ts, hocc, hhit⟩
    · rintro (h | ⟨p', hp', ts, hocc, hhit⟩)
      · exact Or.inl (Or.inl h)
      · rcases List.mem_cons.mp hp' with rfl | hp'
        · exact Or.inl (Or.inr ⟨ts, hocc, hhit⟩)
        · exact Or.inr ⟨p', hp', ts, hocc, hhit⟩

/-- Master membership characterization of `find_resource_dependencies`:
an edge is either an explicit reference-graph or `DependsOn` edge to an
existing, distinct resource, or a Sub-pattern recovery hit. -/
theorem mem_find_resource_dependencies (tmpl : IRTemplate) (rid : String)
    (nmap : List (String × String)) (amap : List (String × (String × String)))
    (x : String) :
    x ∈ find_resource_dependencies tmpl rid nmap amap ↔
    (x ∈ refGraphGet tmpl rid ∧ isResourceKey tmpl x = true ∧ x ≠ rid) ∨
    (∃ res, dictGet rid tmpl.resources = some res ∧
      ((∃ p ∈ res.properties, ∃ ts, SubOccurs ts p.2.value ∧
          subPatternHit nmap amap tmpl.parameters rid ts = some x) ∨
        (x ∈ res.depends_on ∧ isResourceKey tmpl x = true ∧ x ≠ rid))) := by
  rw [find_resource_dependencies]
  cases hres : dictGet rid tmpl.resources with
  | none =>
    rw [mem_addExistingNonSelf]
    simp
  | some res =>
    rw [mem_addExistingNonSelf, mem_findSubInProps, mem_addExistingNonSelf]
    simp only [List.not_mem_nil, false_or, hres, Option.some.injEq]
    constructor
    · rintro ((h | ⟨p, hp, ts, hocc, hhit⟩) | ⟨h1, h2⟩)
      · exact Or.inl h
      · exact Or.inr ⟨res, rfl, Or.inl ⟨p, hp, ts, hocc, hhit⟩⟩
      · exact Or.inr ⟨res, rfl, Or.inr ⟨h1, h2⟩⟩
    · rintro (h | ⟨res', hres', (⟨p, hp, ts, hocc, hhit⟩ | ⟨h1, h2⟩)⟩)
      · exact Or.inl (Or.inl h)
      · subst hres'
        exact Or.inl (Or.inr ⟨p, hp, ts, hocc, hhit⟩)
      · subst hres'
        exact Or.inr ⟨h1, h2⟩

end WetwireAws.Topology

namespace WetwireAws.Topology

open Wetwire.Registry (dictGet)

/-- The Sub value of the Scenario C counterexample: its template string
will match the ARN pattern map, but its only placeholder is the
`AWS::Region` pseudo-parameter. -/
def subValC : IRValue :=
  IRValue.intr IntrinsicType.sub (IRValue.str "arn:aws:s3:::example-$\x7bAWS::Region\x7d")

def policyPropC : IRProperty :=
  { cf_name := "PolicyDocument", python_name := "policy_document", value := subValC }

def policyResC : IRResource :=
  { logical_id := "Policy", resource_type := "AWS::S3::BucketPolicy"
    properties := [("policy_document", policyPropC)], depends_on := [] }

def tmplC : IRTemplate :=
  { parameters := []
    resources := [("Bucket", resStub "Bucket" "AWS::S3::Bucket"), ("Policy", policyResC)]
    reference_graph := [] }

def amapC : List (String × (String × String)) :=
  [("arn:aws:s3:::example-$\x7bAWS::Region\x7d", ("Bucket", "Arn"))]

set_option maxRecDepth 4000 in
theorem findVarRefsC :
    findVarRefs "arn:aws:s3:::example-$\x7bAWS::Region\x7d" = ["AWS::Region"] := by
  simp [findVarRefs, findVarRefsAux]
  rfl

theorem allParamsC :
    allNonPseudoAreParams [] "arn:aws:s3:::example-$\x7bAWS::Region\x7d" = true := by
  rw [allNonPseudoAreParams, findVarRefsC]
  rfl

theorem subPatternHitC :
    subPatternHit [] amapC [] "Policy" "arn:aws:s3:::example-$\x7bAWS::Region\x7d" =
      none := by
  rw [subPatternHit]
  simp [amapC, Wetwire.Registry.dictGet, allParamsC]

/-- C5 counterexample.  `Policy` carries a Sub whose full template string
exactly matches `Bucket`'s ARN pattern, and its placeholder
`AWS::Region` does not resolve to a declared parameter (there are none),
so the claim as stated requires the recovered edge `Policy → Bucket`;
the code adds no edge because the placeholder check only inspects
non-`AWS::` placeholders, which are vacuously all parameters here. -/
theorem claim5_counterexample :
    "Bucket" ∉ find_resource_dependencies tmplC "Policy" [] amapC ∧
    dictGet "arn:aws:s3:::example-$\x7bAWS::Region\x7d" amapC =
      some ("Bucket", "Arn") ∧
    findVarRefs "arn:aws:s3:::example-$\x7bAWS::Region\x7d" = ["AWS::Region"] ∧
    tmplC.parameters = [] ∧
    SubOccurs "arn:aws:s3:::example-$\x7bAWS::Region\x7d" subValC := by
  refine ⟨?_, rfl, findVarRefsC, rfl, SubOccurs.atSub _ rfl⟩
  intro h
  rcases (mem_find_resource_dependencies tmplC "Policy" [] amapC "Bucket").mp h with
    ⟨hrg, _, _⟩ | ⟨res, hres, hinner⟩
  · simp [refGraphGet, tmplC, Wetwire.Registry.dictGet] at hrg
  · have hres0 : dictGet "Policy" tmplC.resources = some policyResC := rfl
    rw [hres0] at hres
    injection hres with hres
    subst hres
    rcases hinner with ⟨p, hp, ts, hocc, hhit⟩ | ⟨hdep, _, _⟩
    · simp only [policyResC, List.mem_singleton] at hp
      subst hp
      simp only [policyPropC, subValC] at hocc
      cases hocc with
      | atSub args hts =>
        simp only [subTemplateStr] at hts
        rw [if_neg (by decide)] at hts
        injection hts with hts
        subst hts
        have hpar : tmplC.parameters = ([] : List String) := rfl
        rw [hpar, subPatternHitC] at hhit
        cases hhit
    · simp [policyResC] at hdep

/-- C5 amended.  If a resource's properties carry (anywhere in the
traversed value tree, `SubOccurs`) a Sub intrinsic whose full template
string matches the name-pattern map (for another resource,
unconditionally) or — failing a name-map hit — the ARN-pattern map for
another resource while not every placeholder WITHOUT the `AWS::`
pseudo-parameter prefix resolves to a declared parameter
(`subPatternHit` returning a target), then that target is added as a
recovered dependency edge; and `find_resource_dependencies` never
returns a self-edge. -/
theorem claim5_sub_pattern_recovery :
    (∀ (tmpl : IRTemplate) (rid : String) (res : IRResource)
      (nmap : List (String × String)) (amap : List (String × (String × String)))
      (ts tgt : String),
      dictGet rid tmpl.resources = some res →
      (∃ p ∈ res.properties, SubOccurs ts p.2.value) →
      subPatternHit nmap amap tmpl.parameters rid ts = some tgt →
      tgt ∈ find_resource_dependencies tmpl rid nmap amap) ∧
    (∀ (tmpl : IRTemplate) (rid : String)
      (nmap : List (String × String)) (amap : List (String × (String × String))),
      rid ∉ find_resource_dependencies tmpl rid nmap amap) := by
  constructor
  · rintro tmpl rid res nmap amap ts tgt hres ⟨p, hp, hocc⟩ hhit
    exact (mem_find_resource_dependencies tmpl rid nmap amap tgt).mpr
      (Or.inr ⟨res, hres, Or.inl ⟨p, hp, ts, hocc, hhit⟩⟩)
  · intro tmpl rid nmap amap h
    rcases (mem_find_resource_dependencies tmpl rid nmap amap rid).mp h with
      ⟨_, _, hne⟩ | ⟨res, _, (⟨p, hp, ts, hocc, hhit⟩ | ⟨_, _, hne⟩)⟩
    · exact hne rfl
    · exact subPatternHit_ne_current _ _ _ _ _ _ hhit rfl
    · exact hne rfl

/-- The Sub value of the witness template: placeholder `TargetBucket` is
not a pseudo-parameter and not declared, so the ARN-pattern hit fires. -/
def subValW : IRValue :=
  IRValue.intr IntrinsicType.sub (IRValue.str "arn:aws:s3:::$\x7bTargetBucket\x7d-logs")

def policyPropW : IRProperty :=
  { cf_name := "PolicyDocument", python_name := "policy_document", value := subValW }

def policyResW : IRResource :=
  { logical_id := "Policy", resource_type := "AWS::S3::BucketPolicy"
    properties := [("policy_document", policyPropW)], depends_on := [] }

def tmplW : IRTemplate :=
  { parameters := []
    resources := [("Bucket", resStub "Bucket" "AWS::S3::Bucket"), ("Policy", policyResW)]
    reference_graph := [] }

def amapW : List (String × (String × String)) :=
  [("arn:aws:s3:::$\x7bTargetBucket\x7d-logs", ("Bucket", "Arn"))]

set_option maxRecDepth 4000 in
theorem findVarRefsW :
    findVarRefs "arn:aws:s3:::$\x7bTargetBucket\x7d-logs" = ["TargetBucket"] := by
  simp [findVarRefs, findVarRefsAux]
  rfl

theorem subPatternHitW :
    subPatternHit [] amapW [] "Policy" "arn:aws:s3:::$\x7bTargetBucket\x7d-logs" =
      some "Bucket" := by
  rw [subPatternHit]
  have h1 : allNonPseudoAreParams [] "arn:aws:s3:::$\x7bTargetBucket\x7d-logs" = false := by
    rw [allNonPseudoAreParams, findVarRefsW]
    rfl
  simp [amapW, Wetwire.Registry.dictGet, h1]

/-- Witness for C5's amended theorem: the Scenario C recovered edge
`Policy → Bucket` with a non-pseudo placeholder. -/
theorem claim5_witness :
    "Bucket" ∈ find_resource_dependencies tmplW "Policy" [] amapW := by
  apply claim5_sub_pattern_recovery.1 tmplW "Policy" policyResW [] amapW
    "arn:aws:s3:::$\x7bTargetBucket\x7d-logs" "Bucket" rfl
    ⟨("policy_document", policyPropW), by simp [policyResW], SubOccurs.atSub _ rfl⟩
  have hpar : tmplW.parameters = ([] : List String) := rfl
  rw [hpar, subPatternHitW]

/-- Scenario D template: `A` holds a `Ref(NoSuchResource)` recorded in
the reference graph, and `NoSuchResource` is not a resource. -/
def tmplD : IRTemplate :=
  { parameters := []
    resources := [("A", resStub "A" "AWS::S3::Bucket")]
    reference_graph := [("A", ["NoSuchResource"])] }

/-- C6 counterexample.  On Scenario D the code returns the empty
dependency set — the unresolved edge `A → NoSuchResource` is silently
dropped rather than reported (no `UnresolvedReferenceError` exists
anywhere in the code). -/
theorem claim6_counterexample :
    find_resource_dependencies tmplD "A" [] [] = [] ∧
    refGraphGet tmplD "A" = ["NoSuchResource"] ∧
    isResourceKey tmplD "NoSuchResource" = false :=
  ⟨rfl, rfl, rfl⟩

/-- C6 amended.  Dependency derivation never fails: edges whose target is
not a key of the resource set are silently dropped.  Provided the
pattern maps target only resources (as the per-template pattern maps
do), every returned dependency is an existing resource key; likewise
`get_dependency_graph` of the ordering module intersects every
dependency set with the input class set. -/
theorem claim6_targets_always_resolve :
    (∀ (tmpl : IRTemplate) (rid : String)
      (nmap : List (String × String)) (amap : List (String × (String × String))),
      (∀ kv ∈ nmap, isResourceKey tmpl kv.2 = true) →
      (∀ kv ∈ amap, isResourceKey tmpl kv.2.1 = true) →
      ∀ x ∈ find_resource_dependencies tmpl rid nmap amap,
        isResourceKey tmpl x = true) ∧
    (∀ (deps : String → List String) (classes : List String)
      (c : String) (l : List String),
      (c, l) ∈ Wetwire.Ordering.get_dependency_graph deps classes →
      ∀ d ∈ l, d ∈ classes) := by
  constructor
  · intro tmpl rid nmap amap hn ha x hx
    rcases (mem_find_resource_dependencies tmpl rid nmap amap x).mp hx with
      ⟨_, hkey, _⟩ | ⟨res, _, (⟨p, hp, ts, hocc, hhit⟩ | ⟨_, hkey, _⟩)⟩
    · exact hkey
    · rcases subPatternHit_provenance _ _ _ _ _ _ hhit with ⟨k, hk⟩ | ⟨k, attr, hk⟩
      · exact hn (k, x) (dictGet_mem _ _ _ hk)
      · exact ha (k, (x, attr)) (dictGet_mem _ _ _ hk)
    · exact hkey
  · intro deps classes c l hmem d hd
    simp only [Wetwire.Ordering.get_dependency_graph, List.mem_map] at hmem
    obtain ⟨c', _, heq⟩ := hmem
    injection heq with h1 h2
    subst h1
    subst h2
    rw [List.mem_filter] at hd
    simpa [List.elem_iff] using hd.2

/-- Witness for C6's amended theorem at the Scenario D template with
empty pattern maps. -/
theorem claim6_witness :
    ∀ x ∈ find_resource_dependencies tmplD "A" [] [],
      isResourceKey tmplD x = true :=
  claim6_targets_always_resolve.1 tmplD "A" [] []
    (fun kv hkv => absurd hkv (List.not_mem_nil kv))
    (fun kv hkv => absurd hkv (List.not_mem_nil kv))

end WetwireAws.Topology

namespace WetwireAws.Topology

open Wetwire.Registry (dictGet dictInsert)

/-!
Tarjan's algorithm of `find_strongly_connected_components`
(topology.py lines 25-79).  The mutable closure state of `strongconnect`
is a record; `index`/`lowlinks` dicts are association lists,
`index_counter` the counter, `stack`'s head is the Python list's top
(its last element), `on_stack` the membership set, `sccs` the output
accumulator (Python appends at the end).  Python's recursion is modelled
with a fuel argument; the driver passes fuel `nodes.length`, which the
correctness proof shows is never exhausted (each nested call indexes a
previously unindexed node). -/

structure TjSt where
  counter : Nat
  stack : List String
  indexM : List (String × Nat)
  lowlinkM : List (String × Nat)
  onStack : List String
  sccs : List (List String)

def TjSt.empty : TjSt := ⟨0, [], [], [], [], []⟩

def tjIndex (st : TjSt) (v : String) : Option Nat := dictGet v st.indexM

def tjLowlink (st : TjSt) (v : String) : Option Nat := dictGet v st.lowlinkM

/-- Lines 52-57: assign index and lowlink, advance the counter, push. -/
def tjInit (v : String) (st : TjSt) : TjSt :=
  { counter := st.counter + 1
    stack := v :: st.stack
    indexM := dictInsert v st.counter st.indexM
    lowlinkM := dictInsert v st.counter st.lowlinkM
    onStack := v :: st.onStack
    sccs := st.sccs }

/-- Line 61: `lowlinks[v] = min(lowlinks[v], lowlinks[w])`. -/
def tjFromChild (v w : String) (st : TjSt) : TjSt :=
  { st with
    lowlinkM := dictInsert v
      (min ((tjLowlink st v).getD 0) ((tjLowlink st w).getD 0)) st.lowlinkM }

/-- Line 63: `lowlinks[v] = min(lowlinks[v], index[w])`. -/
def tjFromStack (v w : String) (st : TjSt) : TjSt :=
  { st with
    lowlinkM := dictInsert v
      (min ((tjLowlink st v).getD 0) ((tjIndex st w).getD 0)) st.lowlinkM }

/-- Lines 65-73: when `v` is a root, pop the stack down to `v`
(top first, `v` last) and append the popped component. -/
def tjClose (v : String) (st : TjSt) : TjSt :=
  if tjLowlink st v = tjIndex st v then
    let scc := st.stack.takeWhile (fun w => w ≠ v) ++ [v]
    { st with
      stack := (st.stack.dropWhile (fun w => w ≠ v)).tail
      onStack := st.onStack.filter (fun w => !scc.contains w)
      sccs := st.sccs ++ [scc] }
  else st

/-- `strongconnect` (topology.py lines 51-73); the successor loop
(lines 58-63) is the fold over `g v`.  Nested calls run at `fuel`, one
less than the caller: the recursion depth of the source is bounded by
the number of unindexed nodes, which strictly decreases at every nested
call. -/
def strongconnect (g : String → List String) : Nat → String → TjSt → TjSt
  | 0, _, st => st
  | fuel + 1, v, st =>
    let st1 := tjInit v st
    let st2 := (g v).foldl
      (fun s w =>
        if (tjIndex s w).isNone then tjFromChild v w (strongconnect g fuel w s)
        else if w ∈ s.onStack then tjFromStack v w s
        else s) st1
    tjClose v st2

/-- The successor loop of `strongconnect` from an intermediate state:
the fold of the remaining successor list. -/
def visitSuccs (g : String → List String) (fuel : Nat) (v : String)
    (l : List String) (st : TjSt) : TjSt :=
  l.foldl
    (fun s w =>
      if (tjIndex s w).isNone then tjFromChild v w (strongconnect g fuel w s)
      else if w ∈ s.onStack then tjFromStack v w s
      else s) st

/-- The driver loop (topology.py lines 75-77) followed by returning the
accumulated components (line 79). -/
def tarjanSCCs (nodes : List String) (g : String → List String) : List (List String) :=
  (nodes.foldl
    (fun st v => if (tjIndex st v).isNone then strongconnect g nodes.length v st else st)
    TjSt.empty).sccs

/-- `find_strongly_connected_components` (topology.py lines 25-79): the
graph maps each resource to its dependencies restricted to existing
resources; the pattern maps (built by the `context` module) are
arguments, as in `find_resource_dependencies`. -/
def find_strongly_connected_components (tmpl : IRTemplate)
    (nmap : List (String × String))
    (amap : List (String × (String × String))) : List (List String) :=
  let resourceKeys := tmpl.resources.map Prod.fst
  tarjanSCCs resourceKeys
    (fun rid => (find_resource_dependencies tmpl rid nmap amap).filter
      (fun d => resourceKeys.contains d))

end WetwireAws.Topology

namespace WetwireAws.Topology

open Wetwire.Registry (dictGet dictInsert)

theorem dictGet_dictInsert_self {β : Type} (k : String) (v : β)
    (m : List (String × β)) : dictGet k (dictInsert k v m) = some v := by
  induction m with
  | nil => simp [Wetwire.Registry.dictGet, Wetwire.Registry.dictInsert]
  | cons p rest ih =>
    obtain ⟨k', v'⟩ := p
    by_cases h : k' = k
    · subst h
      simp [Wetwire.Registry.dictGet, Wetwire.Registry.dictInsert]
    · simp [Wetwire.Registry.dictGet, Wetwire.Registry.dictInsert, h, ih]

theorem dictGet_dictInsert_ne {β : Type} (k k' : String) (v : β)
    (m : List (String × β)) (h : k' ≠ k) :
    dictGet k' (dictInsert k v m) = dictGet k' m := by
  have hkk : ¬ k = k' := fun hh => h hh.symm
  induction m with
  | nil =>
    simp [Wetwire.Registry.dictGet, Wetwire.Registry.dictInsert, hkk]
  | cons p rest ih =>
    obtain ⟨k'', v''⟩ := p
    by_cases hk : k'' = k
    · subst hk
      simp [Wetwire.Registry.dictGet, Wetwire.Registry.dictInsert, hkk]
    · by_cases hk2 : k'' = k'
      · simp [Wetwire.Registry.dictGet, Wetwire.Registry.dictInsert, hk, hk2, h]
      · simp [Wetwire.Registry.dictGet, Wetwire.Registry.dictInsert, hk, hk2, ih]

/-- `v` has been assigned an index. -/
def indexedT (st : TjSt) (v : String) : Prop := (tjIndex st v).isSome

/-- `v` is a member of some emitted component. -/
def inSccT (st : TjSt) (v : String) : Prop := ∃ c ∈ st.sccs, v ∈ c

/-- The successor edge `x → w` has been fully processed: `w` is indexed
and either already sits in an emitted component, or is on the stack with
`lowlink[x] ≤ index[w]`. -/
def EdgeDone (st : TjSt) (x w : String) : Prop :=
  indexedT st w ∧ (inSccT st w ∨ (w ∈ st.stack ∧
    ∃ lx iw, tjLowlink st x = some lx ∧ tjIndex st w = some iw ∧ lx ≤ iw))

/-- All successor edges of `x` have been processed. -/
def FinNodeS (g : String → List String) (st : TjSt) (x : String) : Prop :=
  ∀ w ∈ g x, EdgeDone st x w

/-- The emitted components, read left to right, only have edges into
themselves or into earlier components (`seen` accumulates the members of
the components already passed). -/
def SccsOrderedAux (g : String → List String) :
    List String → List (List String) → Prop
  | _, [] => True
  | seen, c :: rest =>
    (∀ x ∈ c, ∀ w ∈ g x, w ∈ seen ∨ w ∈ c) ∧ SccsOrderedAux g (seen ++ c) rest

/-- Well-formedness invariant of the Tarjan state, relative to the node
set and graph. -/
structure TjWF (nodes : List String) (g : String → List String)
    (st : TjSt) : Prop where
  stack_nodup : st.stack.Nodup
  onStack_iff : ∀ v, v ∈ st.onStack ↔ v ∈ st.stack
  stack_indexed : ∀ v ∈ st.stack, indexedT st v
  scc_indexed : ∀ v, inSccT st v → indexedT st v
  stack_scc_disjoint : ∀ v ∈ st.stack, ¬ inSccT st v
  join_nodup : st.sccs.join.Nodup
  indexed_cover : ∀ v, indexedT st v → v ∈ st.stack ∨ inSccT st v
  indexed_nodes : ∀ v, indexedT st v → v ∈ nodes
  idx_lt_counter : ∀ v i, tjIndex st v = some i → i < st.counter
  low_def_iff : ∀ v, (tjLowlink st v).isSome ↔ (tjIndex st v).isSome
  low_le_idx : ∀ v i j, tjIndex st v = some i → tjLowlink st v = some j → j ≤ i
  lval : ∀ v ∈ st.stack, ∃ u ∈ st.stack, tjLowlink st v = tjIndex st u
  ordered : SccsOrderedAux g [] st.sccs

/-- Evolution of the state across a (partial) run working on current
node `x`: indexes are write-once, lowlinks of other indexed nodes are
frozen, `x`'s lowlink only decreases, the counter grows, components are
appended, and stack membership can only be traded for component
membership. -/
structure TjStep (x : String) (st st' : TjSt) : Prop where
  idx : ∀ u i, tjIndex st u = some i → tjIndex st' u = some i
  low : ∀ u, u ≠ x → indexedT st u → ∀ i, tjLowlink st u = some i →
    tjLowlink st' u = some i
  xlow : ∀ i, tjLowlink st x = some i → ∃ j, tjLowlink st' x = some j ∧ j ≤ i
  counter : st.counter ≤ st'.counter
  sccs_append : ∃ Γ, st'.sccs = st.sccs ++ Γ
  stay : ∀ u, (u ∈ st.stack ∨ inSccT st u) → (u ∈ st'.stack ∨ inSccT st' u)
  idx_new : ∀ u i, tjIndex st' u = some i → tjIndex st u = some i ∨ st.counter ≤ i

theorem TjStep.rfl (x : String) (st : TjSt) : TjStep x st st :=
  ⟨fun _ _ h => h, fun _ _ _ _ h => h, fun i h => ⟨i, h, le_refl i⟩,
    le_refl _, ⟨[], by simp⟩, fun _ h => h, fun _ _ h => Or.inl h⟩

theorem indexedT_mono {x : String} {st st' : TjSt} (h : TjStep x st st')
    {u : String} (hu : indexedT st u) : indexedT st' u := by
  rw [indexedT, Option.isSome_iff_exists] at hu ⊢
  obtain ⟨i, hi⟩ := hu
  exact ⟨i, h.idx u i hi⟩

theorem inSccT_mono {x : String} {st st' : TjSt} (h : TjStep x st st')
    {u : String} (hu : inSccT st u) : inSccT st' u := by
  obtain ⟨c, hc, huc⟩ := hu
  obtain ⟨Γ, hΓ⟩ := h.sccs_append
  exact ⟨c, by rw [hΓ]; exact List.mem_append.mpr (Or.inl hc), huc⟩

theorem TjStep.trans {x : String} {st st' st'' : TjSt}
    (h1 : TjStep x st st') (h2 : TjStep x st' st'') : TjStep x st st'' := by
  refine ⟨?_, ?_, ?_, ?_, ?_, ?_, ?_⟩
  · exact fun u i h => h2.idx u i (h1.idx u i h)
  · intro u hne hind i h
    exact h2.low u hne (indexedT_mono h1 hind) i (h1.low u hne hind i h)
  · intro i h
    obtain ⟨j, hj, hji⟩ := h1.xlow i h
    obtain ⟨k, hk, hkj⟩ := h2.xlow j hj
    exact ⟨k, hk, hkj.trans hji⟩
  · exact h1.counter.trans h2.counter
  · obtain ⟨Γ1, h1'⟩ := h1.sccs_append
    obtain ⟨Γ2, h2'⟩ := h2.sccs_append
    exact ⟨Γ1 ++ Γ2, by rw [h2', h1', List.append_assoc]⟩
  · exact fun u h => h2.stay u (h1.stay u h)
  · intro u i h
    rcases h2.idx_new u i h with h' | h'
    · rcases h1.idx_new u i h' with h'' | h''
      · exact Or.inl h''
      · exact Or.inr h''
    · exact Or.inr (le_trans h1.counter h')

/-- Exempting an unindexed node is the same as exempting any other. -/
theorem TjStep.change_exempt {w : String} {st st' : TjSt}
    (h : TjStep w st st') (hw : ¬ indexedT st w)
    (hld : ∀ u, (tjLowlink st u).isSome → indexedT st u)
    (x : String) : TjStep x st st' := by
  refine ⟨h.idx, ?_, ?_, h.counter, h.sccs_append, h.stay, h.idx_new⟩
  · intro u _ hind i hi
    have hne : u ≠ w := fun heq => hw (heq ▸ hind)
    exact h.low u hne hind i hi
  · intro i hi
    have hsome : (tjLowlink st x).isSome := by rw [hi]; rfl
    have hind : indexedT st x := hld x hsome
    have hxw : x ≠ w := fun heq => hw (heq ▸ hind)
    exact ⟨i, h.low x hxw hind i hi, le_refl i⟩

end WetwireAws.Topology

namespace WetwireAws.Topology

open Wetwire.Registry (dictGet dictInsert)

theorem EdgeDone_stable {x w : String} {st st' : TjSt} (h : EdgeDone st x w)
    (hidx : ∀ u i, tjIndex st u = some i → tjIndex st' u = some i)
    (hxlow : ∀ i, tjLowlink st x = some i →
      ∃ j, tjLowlink st' x = some j ∧ j ≤ i)
    (hstay : ∀ u, (u ∈ st.stack ∨ inSccT st u) → (u ∈ st'.stack ∨ inSccT st' u))
    (hsccs : ∃ Γ, st'.sccs = st.sccs ++ Γ) : EdgeDone st' x w := by
  obtain ⟨hind, hrest⟩ := h
  have hind' : indexedT st' w := by
    rw [indexedT, Option.isSome_iff_exists] at hind ⊢
    obtain ⟨i, hi⟩ := hind
    exact ⟨i, hidx w i hi⟩
  refine ⟨hind', ?_⟩
  obtain ⟨Γ, hΓ⟩ := hsccs
  rcases hrest with hscc | ⟨hstk, lx, iw, hlx, hiw, hle⟩
  · obtain ⟨c, hc, hwc⟩ := hscc
    exact Or.inl ⟨c, by rw [hΓ]; exact List.mem_append.mpr (Or.inl hc), hwc⟩
  · rcases hstay w (Or.inl hstk) with hstk' | hscc'
    · obtain ⟨lx', hlx', hle'⟩ := hxlow lx hlx
      exact Or.inr ⟨hstk', lx', iw, hlx', hidx w iw hiw, hle'.trans hle⟩
    · exact Or.inl hscc'

theorem sccsOrderedAux_append (g : String → List String) (c : List String) :
    ∀ (l : List (List String)) (seen : List String),
      SccsOrderedAux g seen l →
      (∀ x ∈ c, ∀ w ∈ g x, w ∈ seen ++ l.join ∨ w ∈ c) →
      SccsOrderedAux g seen (l ++ [c]) := by
  intro l
  induction l with
  | nil =>
    intro seen _ hc
    exact ⟨fun x hx w hw => by simpa using hc x hx w hw, trivial⟩
  | cons d rest ih =>
    intro seen hord hc
    refine ⟨hord.1, ih (seen ++ d) hord.2 ?_⟩
    intro x hx w hw
    rcases hc x hx w hw with h | h
    · left
      have hj : (d :: rest).join = d ++ rest.join := rfl
      rw [hj, ← List.append_assoc] at h
      exact h
    · exact Or.inr h

theorem sccsOrderedAux_spec (g : String → List String) :
    ∀ (l : List (List String)) (seen : List String),
      SccsOrderedAux g seen l →
      ∀ i (hi : i < l.length), ∀ x ∈ l.get ⟨i, hi⟩, ∀ w ∈ g x,
        w ∈ seen ∨ ∃ k, ∃ hk : k < l.length, k ≤ i ∧ w ∈ l.get ⟨k, hk⟩ := by
  intro l
  induction l with
  | nil =>
    intro seen _ i hi
    exact absurd hi (by simp)
  | cons d rest ih =>
    intro seen hord i hi x hx w hw
    cases i with
    | zero =>
      rcases hord.1 x hx w hw with h | h
      · exact Or.inl h
      · exact Or.inr ⟨0, hi, le_refl 0, h⟩
    | succ i' =>
      have hi' : i' < rest.length := by simpa using hi
      have := ih (seen ++ d) hord.2 i' hi' x hx w hw
      rcases this with h | ⟨k, hk, hki, hkw⟩
      · rcases List.mem_append.mp h with h' | h'
        · exact Or.inl h'
        · exact Or.inr ⟨0, by simp, Nat.zero_le _, h'⟩
      · exact Or.inr ⟨k + 1, by simpa using hk, by omega, hkw⟩

theorem mem_unique_scc (l : List (List String)) (h : l.join.Nodup) :
    ∀ i j (hi : i < l.length) (hj : j < l.length) (w : String),
      w ∈ l.get ⟨i, hi⟩ → w ∈ l.get ⟨j, hj⟩ → i = j := by
  have hdisj : l.Pairwise List.Disjoint := (List.nodup_join.mp h).2
  intro i j hi hj w hwi hwj
  rcases Nat.lt_trichotomy i j with hij | hij | hij
  · have := List.pairwise_iff_getElem.mp hdisj i j hi hj hij
    exact absurd (this hwi hwj) (by simp)
  · exact hij
  · have := List.pairwise_iff_getElem.mp hdisj j i hj hi hij
    exact absurd (this hwj hwi) (by simp)

theorem length_filter_imp {α : Type} (l : List α) (p q : α → Bool)
    (h : ∀ a ∈ l, p a = true → q a = true) :
    (l.filter p).length ≤ (l.filter q).length := by
  induction l with
  | nil => simp
  | cons a rest ih =>
    have ih' := ih (fun b hb => h b (List.mem_cons_of_mem _ hb))
    by_cases hp : p a = true
    · have hq := h a (List.mem_cons_self _ _) hp
      simp only [List.filter_cons, hp, hq, if_true]
      simpa using ih'
    · simp only [List.filter_cons, hp]
      by_cases hq : q a = true <;> simp only [hq, if_true, if_false] <;>
        [exact ih'.trans (by simp); exact ih']

/-- The number of nodes not yet assigned an index. -/
def unindexedCount (nodes : List String) (st : TjSt) : Nat :=
  (nodes.filter (fun v => (tjIndex st v).isNone)).length

theorem unindexedCount_le {x : String} {st st' : TjSt} (h : TjStep x st st')
    (nodes : List String) :
    unindexedCount nodes st' ≤ unindexedCount nodes st := by
  apply length_filter_imp
  intro a _ ha
  rw [Option.isNone_iff_eq_none] at ha ⊢
  by_contra hne
  obtain ⟨i, hi⟩ := Option.ne_none_iff_exists'.mp hne
  rw [h.idx a i hi] at ha
  cases ha

theorem tjIndex_init (v u : String) (st : TjSt) :
    tjIndex (tjInit v st) u = if u = v then some st.counter else tjIndex st u := by
  by_cases h : u = v
  · subst h
    simp [tjIndex, tjInit, dictGet_dictInsert_self]
  · simp [tjIndex, tjInit, dictGet_dictInsert_ne v u _ _ h, h]

theorem tjLowlink_init (v u : String) (st : TjSt) :
    tjLowlink (tjInit v st) u = if u = v then some st.counter else tjLowlink st u := by
  by_cases h : u = v
  · subst h
    simp [tjLowlink, tjInit, dictGet_dictInsert_self]
  · simp [tjLowlink, tjInit, dictGet_dictInsert_ne v u _ _ h, h]

theorem tjLowlink_fromChild (v w u : String) (st : TjSt) :
    tjLowlink (tjFromChild v w st) u =
      if u = v then some (min ((tjLowlink st v).getD 0) ((tjLowlink st w).getD 0))
      else tjLowlink st u := by
  by_cases h : u = v
  · subst h
    simp [tjLowlink, tjFromChild, dictGet_dictInsert_self]
  · simp [tjLowlink, tjFromChild, dictGet_dictInsert_ne v u _ _ h, h]

theorem tjLowlink_fromStack (v w u : String) (st : TjSt) :
    tjLowlink (tjFromStack v w st) u =
      if u = v then some (min ((tjLowlink st v).getD 0) ((tjIndex st w).getD 0))
      else tjLowlink st u := by
  by_cases h : u = v
  · subst h
    simp [tjLowlink, tjFromStack, dictGet_dictInsert_self]
  · simp [tjLowlink, tjFromStack, dictGet_dictInsert_ne v u _ _ h, h]

theorem takeWhile_ne_append {A : List String} {v : String} (S : List String)
    (hv : v ∉ A) :
    (A ++ v :: S).takeWhile (fun w => w ≠ v) = A ∧
    (A ++ v :: S).dropWhile (fun w => w ≠ v) = v :: S := by
  induction A with
  | nil => simp [List.takeWhile, List.dropWhile]
  | cons a A' ih =>
    have hne : a ≠ v := fun h => hv (h ▸ List.mem_cons_self _ _)
    have ih' := ih (fun h => hv (List.mem_cons_of_mem _ h))
    constructor
    · rw [List.cons_append, List.takeWhile_cons, if_pos (by simp [hne]), ih'.1]
    · rw [List.cons_append, List.dropWhile_cons, if_pos (by simp [hne]), ih'.2]

end WetwireAws.Topology

namespace WetwireAws.Topology

theorem indexedT_init_of {v u : String} {st : TjSt} (h : indexedT st u) :
    indexedT (tjInit v st) u := by
  rw [indexedT, tjIndex_init]
  by_cases hu : u = v <;> simp [hu]
  · exact h

theorem indexedT_init_self (v : String) (st : TjSt) : indexedT (tjInit v st) v := by
  rw [indexedT, tjIndex_init, if_pos rfl]
  rfl

theorem inSccT_init (v u : String) (st : TjSt) :
    inSccT (tjInit v st) u ↔ inSccT st u := Iff.rfl

theorem unindexedCount_init (nodes : List String) (hnd : nodes.Nodup)
    (v : String) (st : TjSt) (hv : v ∈ nodes) (hun : ¬ indexedT st v) :
    unindexedCount nodes (tjInit v st) + 1 = unindexedCount nodes st := by
  rw [unindexedCount, unindexedCount]
  induction nodes with
  | nil => cases hv
  | cons a rest ih =>
    obtain ⟨hna, hndr⟩ := List.nodup_cons.mp hnd
    rcases List.mem_cons.mp hv with rfl | hv'
    · have h1 : tjIndex (tjInit v st) v = some st.counter := by
        rw [tjIndex_init, if_pos rfl]
      have h2 : tjIndex st v = none := by
        rw [indexedT, Option.not_isSome_iff_eq_none] at hun
        exact hun
      have h3 : rest.filter (fun u => (tjIndex (tjInit v st) u).isNone) =
          rest.filter (fun u => (tjIndex st u).isNone) := by
        apply List.filter_congr
        intro u hu
        have hne : u ≠ v := fun h => hna (h ▸ hu)
        rw [tjIndex_init, if_neg hne]
      rw [List.filter_cons, List.filter_cons]
      simp [h1, h2, h3]
    · have hne : a ≠ v := fun h => hna (h ▸ hv')
      have h1 : (tjIndex (tjInit v st) a).isNone = (tjIndex st a).isNone := by
        rw [tjIndex_init, if_neg hne]
      have := ih hndr hv'
      simp only [List.filter_cons, h1]
      by_cases ha : (tjIndex st a).isNone = true <;> simp only [ha, if_true, if_false] <;>
        [simpa using this; exact this]

theorem tjInit_WF (nodes : List String) (g : String → List String) (st : TjSt)
    (hWF : TjWF nodes g st) (v : String) (hv : v ∈ nodes)
    (hun : ¬ indexedT st v) : TjWF nodes g (tjInit v st) := by
  have hvstack : v ∉ st.stack := fun h => hun (hWF.stack_indexed v h)
  refine ⟨?_, ?_, ?_, ?_, ?_, ?_, ?_, ?_, ?_, ?_, ?_, ?_, ?_⟩
  · exact List.nodup_cons.mpr ⟨hvstack, hWF.stack_nodup⟩
  · intro u
    show u ∈ v :: st.onStack ↔ u ∈ v :: st.stack
    simp [hWF.onStack_iff u]
  · intro u hu
    rcases List.mem_cons.mp hu with rfl | hu'
    · exact indexedT_init_self u st
    · exact indexedT_init_of (hWF.stack_indexed u hu')
  · intro u hu
    exact indexedT_init_of (hWF.scc_indexed u ((inSccT_init v u st).mp hu))
  · intro u hu hscc
    rcases List.mem_cons.mp hu with rfl | hu'
    · exact hun (hWF.scc_indexed u ((inSccT_init u u st).mp hscc))
    · exact hWF.stack_scc_disjoint u hu' ((inSccT_init v u st).mp hscc)
  · exact hWF.join_nodup
  · intro u hu
    by_cases huv : u = v
    · subst huv
      exact Or.inl (List.mem_cons_self _ _)
    · rw [indexedT, tjIndex_init, if_neg huv] at hu
      rcases hWF.indexed_cover u hu with h | h
      · exact Or.inl (List.mem_cons_of_mem _ h)
      · exact Or.inr ((inSccT_init v u st).mpr h)
  · intro u hu
    by_cases huv : u = v
    · subst huv; exact hv
    · rw [indexedT, tjIndex_init, if_neg huv] at hu
      exact hWF.indexed_nodes u hu
  · intro u i hi
    rw [tjIndex_init] at hi
    by_cases huv : u = v
    · rw [if_pos huv] at hi
      injection hi with hi
      subst hi
      show st.counter < st.counter + 1
      omega
    · rw [if_neg huv] at hi
      have := hWF.idx_lt_counter u i hi
      show i < st.counter + 1
      omega
  · intro u
    rw [tjLowlink_init, tjIndex_init]
    by_cases huv : u = v
    · simp [huv]
    · simp only [if_neg huv]
      exact hWF.low_def_iff u
  · intro u i j hi hj
    rw [tjIndex_init] at hi
    rw [tjLowlink_init] at hj
    by_cases huv : u = v
    · rw [if_pos huv] at hi hj
      injection hi with hi
      injection hj with hj
      omega
    · rw [if_neg huv] at hi hj
      exact hWF.low_le_idx u i j hi hj
  · intro u hu
    rcases List.mem_cons.mp hu with rfl | hu'
    · refine ⟨u, List.mem_cons_self _ _, ?_⟩
      rw [tjLowlink_init, tjIndex_init, if_pos rfl, if_pos rfl]
    · obtain ⟨w, hw, hval⟩ := hWF.lval u hu'
      have hune : u ≠ v := fun h => hvstack (h ▸ hu')
      have hwne : w ≠ v := fun h => hvstack (h ▸ hw)
      refine ⟨w, List.mem_cons_of_mem _ hw, ?_⟩
      rw [tjLowlink_init, tjIndex_init, if_neg hune, if_neg hwne]
      exact hval
  · exact hWF.ordered

theorem tjInit_step (st : TjSt) (v : String) (hWF_low : ∀ u,
      (tjLowlink st u).isSome ↔ (tjIndex st u).isSome)
    (hun : ¬ indexedT st v) : TjStep v st (tjInit v st) := by
  refine ⟨?_, ?_, ?_, ?_, ?_, ?_, ?_⟩
  · intro u i hi
    have hne : u ≠ v := by
      rintro rfl
      exact hun (by rw [indexedT, hi]; rfl)
    rw [tjIndex_init, if_neg hne]
    exact hi
  · intro u hne _ i hi
    rw [tjLowlink_init, if_neg hne]
    exact hi
  · intro i hi
    exfalso
    apply hun
    rw [indexedT, ← hWF_low v, hi]
    rfl
  · show st.counter ≤ st.counter + 1
    omega
  · exact ⟨[], by simp [tjInit]⟩
  · intro u hu
    rcases hu with h | h
    · exact Or.inl (List.mem_cons_of_mem _ h)
    · exact Or.inr ((inSccT_init v u st).mpr h)
  · intro u i hi
    rw [tjIndex_init] at hi
    by_cases huv : u = v
    · rw [if_pos huv] at hi
      injection hi with hi
      exact Or.inr (by omega)
    · rw [if_neg huv] at hi
      exact Or.inl hi

end WetwireAws.Topology

namespace WetwireAws.Topology

open Wetwire.Registry (dictGet dictInsert)

/-- Postcondition of `strongconnect g fuel v st` (with enough fuel, on an
unindexed node `v` of a well-formed state): the invariant is maintained,
the state evolves monotonically, `v` receives the entry counter as
index, and the stack grows by a block `Δ` of newly indexed, fully
processed nodes whose lowlinks dominate `v`'s; either `v`'s component
was emitted and the stack is restored (`v` was a root), or `v` is still
on the stack with `lowlink[v] < index[v]`. -/
structure SCPost (nodes : List String) (g : String → List String) (v : String)
    (st st' : TjSt) : Prop where
  wf : TjWF nodes g st'
  step : TjStep v st st'
  vidx : tjIndex st' v = some st.counter
  split : ∃ Δ, st'.stack = Δ ++ st.stack ∧
    (∀ x ∈ Δ, ¬ indexedT st x) ∧
    (∀ x ∈ Δ, FinNodeS g st' x) ∧
    (∀ x ∈ Δ, ∃ lv lx, tjLowlink st' v = some lv ∧ tjLowlink st' x = some lx ∧
      lv ≤ lx) ∧
    ((Δ = [] ∧ inSccT st' v ∧ tjLowlink st' v = tjIndex st' v) ∨
     (v ∈ Δ ∧ ∃ lv iv, tjLowlink st' v = some lv ∧ tjIndex st' v = some iv ∧
       lv < iv))

/-- Postcondition of the successor loop from an intermediate state. -/
structure VSPost (nodes : List String) (g : String → List String) (v : String)
    (l : List String) (st st' : TjSt) : Prop where
  wf : TjWF nodes g st'
  step : TjStep v st st'
  split : ∃ Δ, st'.stack = Δ ++ st.stack ∧
    (∀ x ∈ Δ, ¬ indexedT st x) ∧
    (∀ x ∈ Δ, FinNodeS g st' x) ∧
    (∀ x ∈ Δ, ∃ lv lx, tjLowlink st' v = some lv ∧ tjLowlink st' x = some lx ∧
      lv ≤ lx)
  edges : ∀ w ∈ l, EdgeDone st' v w

/-- Updating the current node's lowlink to a smaller value that is still
witnessed by an on-stack index preserves well-formedness. -/
theorem WF_update_low (nodes : List String) (g : String → List String)
    (st : TjSt) (hWF : TjWF nodes g st) (v : String) (hv : v ∈ st.stack)
    (m lv : Nat) (hlv : tjLowlink st v = some lv) (hm_le : m ≤ lv)
    (hm_wit : ∃ u ∈ st.stack, tjIndex st u = some m) :
    TjWF nodes g { st with lowlinkM := dictInsert v m st.lowlinkM } := by
  have hlow : ∀ u, tjLowlink { st with lowlinkM := dictInsert v m st.lowlinkM } u =
      if u = v then some m else tjLowlink st u := by
    intro u
    by_cases h : u = v
    · subst h
      rw [if_pos rfl]
      exact dictGet_dictInsert_self u m st.lowlinkM
    · rw [if_neg h]
      exact dictGet_dictInsert_ne v u m st.lowlinkM h
  refine ⟨hWF.stack_nodup, hWF.onStack_iff, ?_, ?_, ?_, hWF.join_nodup, ?_, ?_,
    hWF.idx_lt_counter, ?_, ?_, ?_, hWF.ordered⟩
  · exact hWF.stack_indexed
  · exact hWF.scc_indexed
  · exact hWF.stack_scc_disjoint
  · exact hWF.indexed_cover
  · exact hWF.indexed_nodes
  · intro u
    rw [hlow u]
    by_cases h : u = v
    · subst h
      have hiu : indexedT st u := hWF.stack_indexed u hv
      simp [indexedT] at hiu
      simp [tjIndex] at hiu ⊢
      exact hiu
    · rw [if_neg h]
      exact hWF.low_def_iff u
  · intro u i j hi hj
    rw [hlow u] at hj
    by_cases h : u = v
    · subst h
      rw [if_pos rfl] at hj
      injection hj with hj
      subst hj
      have hiv : tjIndex st u = some i := hi
      have := hWF.low_le_idx u i lv hiv hlv
      omega
    · rw [if_neg h] at hj
      exact hWF.low_le_idx u i j hi hj
  · intro u hu
    by_cases h : u = v
    · subst h
      obtain ⟨u', hu', hu'i⟩ := hm_wit
      refine ⟨u', hu', ?_⟩
      rw [hlow u, if_pos rfl]
      exact hu'i.symm
    · obtain ⟨u', hu', hval⟩ := hWF.lval u hu
      refine ⟨u', hu', ?_⟩
      rw [hlow u, if_neg h]
      exact hval

theorem step_update_low (st : TjSt) (v : String) (m lv : Nat)
    (hlv : tjLowlink st v = some lv) (hm : m ≤ lv) :
    TjStep v st { st with lowlinkM := dictInsert v m st.lowlinkM } := by
  refine ⟨fun u i h => h, ?_, ?_, le_refl _, ⟨[], by simp⟩, fun u h => h,
    fun u i h => Or.inl h⟩
  · intro u hne _ i hi
    show dictGet u (dictInsert v m st.lowlinkM) = some i
    rw [dictGet_dictInsert_ne v u _ _ hne]
    exact hi
  · intro i hi
    rw [hlv] at hi
    injection hi with hi
    subst hi
    refine ⟨m, ?_, hm⟩
    show dictGet v (dictInsert v m st.lowlinkM) = some m
    exact dictGet_dictInsert_self v m st.lowlinkM

end WetwireAws.Topology

namespace WetwireAws.Topology

open Wetwire.Registry (dictGet dictInsert)

/-- What one iteration of the successor loop establishes for the edge
`v → w`: invariant and monotonicity hold, the stack grew only by newly
indexed finished nodes dominating `v`'s lowlink, the edge is processed,
and no indexed node was lost. -/
def OneStep (nodes : List String) (g : String → List String) (v w : String)
    (st st_a : TjSt) : Prop :=
  TjWF nodes g st_a ∧ TjStep v st st_a ∧
  (∃ Δa, st_a.stack = Δa ++ st.stack ∧
    (∀ x ∈ Δa, ¬ indexedT st x) ∧
    (∀ x ∈ Δa, FinNodeS g st_a x) ∧
    (∀ x ∈ Δa, ∃ la lx, tjLowlink st_a v = some la ∧ tjLowlink st_a x = some lx ∧
      la ≤ lx)) ∧
  EdgeDone st_a v w ∧
  unindexedCount nodes st_a ≤ unindexedCount nodes st

theorem fromChild_key (nodes : List String) (g : String → List String)
    (v w : String) (st stc : TjSt) (hWF : TjWF nodes g st)
    (hvstk : v ∈ st.stack) (hwun : ¬ indexedT st w)
    (hpost : SCPost nodes g w st stc) :
    OneStep nodes g v w st (tjFromChild v w stc) := by
  have hvidx : indexedT st v := hWF.stack_indexed v hvstk
  obtain ⟨iv, hiv⟩ := Option.isSome_iff_exists.mp hvidx
  obtain ⟨lv, hlv⟩ := Option.isSome_iff_exists.mp ((hWF.low_def_iff v).mpr hvidx)
  have hvw : v ≠ w := fun h => hwun (h ▸ hvidx)
  have hlv_c : tjLowlink stc v = some lv := hpost.step.low v hvw hvidx lv hlv
  have hiv_c : tjIndex stc v = some iv := hpost.step.idx v iv hiv
  have hlw_s : (tjLowlink stc w).isSome :=
    (hpost.wf.low_def_iff w).mpr (by rw [hpost.vidx]; rfl)
  obtain ⟨lw, hlw_c⟩ := Option.isSome_iff_exists.mp hlw_s
  have hlw_le : lw ≤ st.counter :=
    hpost.wf.low_le_idx w st.counter lw hpost.vidx hlw_c
  have hiv_lt : iv < st.counter := hWF.idx_lt_counter v iv hiv
  have hlv_le : lv ≤ iv := hWF.low_le_idx v iv lv hiv hlv
  obtain ⟨Δc, hcstk, hcnew, hcfin, hcvle, hroot⟩ := hpost.split
  have hv_stc : v ∈ stc.stack := by
    rw [hcstk]
    exact List.mem_append.mpr (Or.inr hvstk)
  have hfa : tjFromChild v w stc =
      { stc with lowlinkM := dictInsert v (min lv lw) stc.lowlinkM } := by
    simp only [tjFromChild, hlv_c, hlw_c, Option.getD_some]
  have hwit : ∃ u ∈ stc.stack, tjIndex stc u = some (min lv lw) := by
    rcases le_or_lt lv lw with h | h
    · rw [min_eq_left h]
      obtain ⟨u, hu, hval⟩ := hpost.wf.lval v hv_stc
      exact ⟨u, hu, by rw [← hval, hlv_c]⟩
    · rw [min_eq_right (le_of_lt h)]
      rcases hroot with ⟨_, _, hloweq⟩ | ⟨hwΔ, _⟩
      · exfalso
        rw [hlw_c, hpost.vidx] at hloweq
        injection hloweq with hh
        omega
      · obtain ⟨u, hu, hval⟩ := hpost.wf.lval w
          (by rw [hcstk]; exact List.mem_append.mpr (Or.inl hwΔ))
        exact ⟨u, hu, by rw [← hval, hlw_c]⟩
  have hWFa : TjWF nodes g (tjFromChild v w stc) := by
    rw [hfa]
    exact WF_update_low nodes g stc hpost.wf v hv_stc (min lv lw) lv hlv_c
      (min_le_left _ _) hwit
  have hld : ∀ u, (tjLowlink st u).isSome → indexedT st u :=
    fun u hu => (hWF.low_def_iff u).mp hu
  have hstep1 : TjStep v st stc := hpost.step.change_exempt hwun hld v
  have hstep2 : TjStep v stc (tjFromChild v w stc) := by
    rw [hfa]
    exact step_update_low stc v (min lv lw) lv hlv_c (min_le_left _ _)
  have hstepa : TjStep v st (tjFromChild v w stc) := hstep1.trans hstep2
  have hlow_a_v : tjLowlink (tjFromChild v w stc) v = some (min lv lw) := by
    rw [hfa]
    exact dictGet_dictInsert_self v _ stc.lowlinkM
  have hlow_a_ne : ∀ u, u ≠ v →
      tjLowlink (tjFromChild v w stc) u = tjLowlink stc u := by
    intro u hu
    rw [hfa]
    exact dictGet_dictInsert_ne v u _ stc.lowlinkM hu
  have hidx_a : ∀ u, tjIndex (tjFromChild v w stc) u = tjIndex stc u :=
    fun u => rfl
  have hstack_a : (tjFromChild v w stc).stack = stc.stack := rfl
  have hsccs_a : (tjFromChild v w stc).sccs = stc.sccs := rfl
  refine ⟨hWFa, hstepa, ⟨Δc, ?_, hcnew, ?_, ?_⟩, ?_, ?_⟩
  · rw [hstack_a, hcstk]
  · intro x hx z hz
    have hxun : ¬ indexedT st x := hcnew x hx
    have hxv : x ≠ v := fun h => hxun (h ▸ hvidx)
    refine EdgeDone_stable (hcfin x hx z hz) ?_ ?_ ?_ ?_
    · intro u i hi
      rw [hidx_a]
      exact hi
    · intro i hi
      exact ⟨i, by rw [hlow_a_ne x hxv]; exact hi, le_refl i⟩
    · intro u hu
      exact hu
    · exact ⟨[], by rw [hsccs_a]; simp⟩
  · intro x hx
    obtain ⟨lw0, lx, hlw0, hlx, hle⟩ := hcvle x hx
    have h00 : lw0 = lw := by
      rw [hlw_c] at hlw0
      injection hlw0 with h
      exact h.symm
    have hxun : ¬ indexedT st x := hcnew x hx
    have hxv : x ≠ v := fun h => hxun (h ▸ hvidx)
    refine ⟨min lv lw, lx, hlow_a_v, ?_, ?_⟩
    · rw [hlow_a_ne x hxv]
      exact hlx
    · have := min_le_right lv lw
      omega
  · refine ⟨?_, ?_⟩
    · show (tjIndex (tjFromChild v w stc) w).isSome = true
      rw [hidx_a w, hpost.vidx]
      rfl
    · rcases hroot with ⟨_, hscc, _⟩ | ⟨hwΔ, _⟩
      · exact Or.inl hscc
      · refine Or.inr ⟨?_, min lv lw, st.counter, hlow_a_v, ?_, ?_⟩
        · rw [hstack_a, hcstk]
          exact List.mem_append.mpr (Or.inl hwΔ)
        · rw [hidx_a w]
          exact hpost.vidx
        · have := min_le_right lv lw
          omega
  · exact unindexedCount_le hstepa nodes

theorem fromStack_key (nodes : List String) (g : String → List String)
    (v w : String) (st : TjSt) (hWF : TjWF nodes g st)
    (hvstk : v ∈ st.stack) (hws : w ∈ st.onStack) :
    OneStep nodes g v w st (tjFromStack v w st) := by
  have hw_stk : w ∈ st.stack := (hWF.onStack_iff w).mp hws
  have hwind : indexedT st w := hWF.stack_indexed w hw_stk
  obtain ⟨iw, hiw⟩ := Option.isSome_iff_exists.mp hwind
  have hvidx : indexedT st v := hWF.stack_indexed v hvstk
  obtain ⟨lv, hlv⟩ := Option.isSome_iff_exists.mp ((hWF.low_def_iff v).mpr hvidx)
  have hfa : tjFromStack v w st =
      { st with lowlinkM := dictInsert v (min lv iw) st.lowlinkM } := by
    simp only [tjFromStack, hlv, hiw, Option.getD_some]
  have hwit : ∃ u ∈ st.stack, tjIndex st u = some (min lv iw) := by
    rcases le_or_lt lv iw with h | h
    · rw [min_eq_left h]
      obtain ⟨u, hu, hval⟩ := hWF.lval v hvstk
      exact ⟨u, hu, by rw [← hval, hlv]⟩
    · rw [min_eq_right (le_of_lt h)]
      exact ⟨w, hw_stk, hiw⟩
  have hWFa : TjWF nodes g (tjFromStack v w st) := by
    rw [hfa]
    exact WF_update_low nodes g st hWF v hvstk (min lv iw) lv hlv
      (min_le_left _ _) hwit
  have hstepa : TjStep v st (tjFromStack v w st) := by
    rw [hfa]
    exact step_update_low st v (min lv iw) lv hlv (min_le_left _ _)
  have hlow_a_v : tjLowlink (tjFromStack v w st) v = some (min lv iw) := by
    rw [hfa]
    exact dictGet_dictInsert_self v _ st.lowlinkM
  refine ⟨hWFa, hstepa, ⟨[], by simp [tjFromStack], by simp, by simp, by simp⟩,
    ?_, ?_⟩
  · refine ⟨?_, Or.inr ⟨?_, min lv iw, iw, hlow_a_v, ?_, min_le_right _ _⟩⟩
    · show (tjIndex st w).isSome = true
      rw [hiw]
      rfl
    · show w ∈ st.stack
      exact hw_stk
    · show tjIndex st w = some iw
      exact hiw
  · exact le_of_eq (rfl : unindexedCount nodes (tjFromStack v w st) =
      unindexedCount nodes st)

theorem skip_key (nodes : List String) (g : String → List String)
    (v w : String) (st : TjSt) (hWF : TjWF nodes g st)
    (hwind : indexedT st w) (hws : w ∉ st.onStack) :
    OneStep nodes g v w st st := by
  refine ⟨hWF, TjStep.rfl v st, ⟨[], by simp, by simp, by simp, by simp⟩, ?_,
    le_refl _⟩
  refine ⟨hwind, ?_⟩
  have hnstk : w ∉ st.stack := fun h => hws ((hWF.onStack_iff w).mpr h)
  rcases hWF.indexed_cover w hwind with h | h
  · exact absurd h hnstk
  · exact Or.inl h

end WetwireAws.Topology

namespace WetwireAws.Topology

theorem visitSuccs_spec (nodes : List String) (g : String → List String)
    (fuel : Nat)
    (IH : ∀ w st, TjWF nodes g st → w ∈ nodes → ¬ indexedT st w →
      unindexedCount nodes st ≤ fuel →
      SCPost nodes g w st (strongconnect g fuel w st)) :
    ∀ (l : List String) (v : String) (st : TjSt),
      TjWF nodes g st → (∀ w ∈ l, w ∈ nodes) → v ∈ st.stack →
      unindexedCount nodes st ≤ fuel →
      VSPost nodes g v l st (visitSuccs g fuel v l st) := by
  intro l
  induction l with
  | nil =>
    intro v st hWF _ _ _
    exact ⟨hWF, TjStep.rfl v st, ⟨[], rfl, by simp, by simp, by simp⟩,
      by simp⟩
  | cons w ws ih =>
    intro v st hWF hl hvstk hcnt
    have hwnodes : w ∈ nodes := hl w (List.mem_cons_self _ _)
    have key : ∃ st_a, visitSuccs g fuel v (w :: ws) st =
        visitSuccs g fuel v ws st_a ∧ OneStep nodes g v w st st_a := by
      by_cases hwn : (tjIndex st w).isNone = true
      · refine ⟨tjFromChild v w (strongconnect g fuel w st), ?_, ?_⟩
        · show visitSuccs g fuel v ws
            (if (tjIndex st w).isNone then
              tjFromChild v w (strongconnect g fuel w st)
             else if w ∈ st.onStack then tjFromStack v w st else st) = _
          rw [if_pos hwn]
        · have hwun : ¬ indexedT st w := by
            rw [Option.isNone_iff_eq_none] at hwn
            show ¬ (tjIndex st w).isSome = true
            rw [hwn]
            simp
          exact fromChild_key nodes g v w st _ hWF hvstk hwun
            (IH w st hWF hwnodes hwun hcnt)
      · by_cases hws : w ∈ st.onStack
        · refine ⟨tjFromStack v w st, ?_, fromStack_key nodes g v w st hWF hvstk hws⟩
          show visitSuccs g fuel v ws
            (if (tjIndex st w).isNone then
              tjFromChild v w (strongconnect g fuel w st)
             else if w ∈ st.onStack then tjFromStack v w st else st) = _
          rw [if_neg hwn, if_pos hws]
        · have hwind : indexedT st w := by
            show (tjIndex st w).isSome = true
            rcases hh : tjIndex st w with _ | i
            · rw [Option.isNone_iff_eq_none] at hwn
              exact absurd hh hwn
            · rfl
          refine ⟨st, ?_, skip_key nodes g v w st hWF hwind hws⟩
          show visitSuccs g fuel v ws
            (if (tjIndex st w).isNone then
              tjFromChild v w (strongconnect g fuel w st)
             else if w ∈ st.onStack then tjFromStack v w st else st) = _
          rw [if_neg hwn, if_neg hws]
    obtain ⟨st_a, heq, hWFa, hstepa, ⟨Δa, hsplit_a, hnew_a, hfin_a, hvle_a⟩,
      hedge_a, hcnt_a⟩ := key
    have hvidx : indexedT st v := hWF.stack_indexed v hvstk
    have hvstk_a : v ∈ st_a.stack := by
      rw [hsplit_a]
      exact List.mem_append.mpr (Or.inr hvstk)
    have hrec := ih v st_a hWFa (fun u hu => hl u (List.mem_cons_of_mem _ hu))
      hvstk_a (le_trans hcnt_a hcnt)
    rw [heq]
    obtain ⟨hrwf, hrstep, ⟨Δr, hrstk, hrnew, hrfin, hrvle⟩, hredges⟩ := hrec
    refine ⟨hrwf, hstepa.trans hrstep, ⟨Δr ++ Δa, ?_, ?_, ?_, ?_⟩, ?_⟩
    · rw [hrstk, hsplit_a, List.append_assoc]
    · intro x hx
      rcases List.mem_append.mp hx with hxr | hxa
      · exact fun hix => hrnew x hxr (indexedT_mono hstepa hix)
      · exact hnew_a x hxa
    · intro x hx
      rcases List.mem_append.mp hx with hxr | hxa
      · exact hrfin x hxr
      · intro z hz
        have hxun : ¬ indexedT st x := hnew_a x hxa
        have hxv : x ≠ v := fun h => hxun (h ▸ hvidx)
        have hxind : indexedT st_a x := hWFa.stack_indexed x
          (by rw [hsplit_a]; exact List.mem_append.mpr (Or.inl hxa))
        refine EdgeDone_stable (hfin_a x hxa z hz) hrstep.idx ?_ hrstep.stay
          hrstep.sccs_append
        intro i hi
        exact ⟨i, hrstep.low x hxv hxind i hi, le_refl i⟩
    · intro x hx
      rcases List.mem_append.mp hx with hxr | hxa
      · exact hrvle x hxr
      · obtain ⟨la, lx, hla, hlx, hle⟩ := hvle_a x hxa
        have hxun : ¬ indexedT st x := hnew_a x hxa
        have hxv : x ≠ v := fun h => hxun (h ▸ hvidx)
        have hxind : indexedT st_a x := hWFa.stack_indexed x
          (by rw [hsplit_a]; exact List.mem_append.mpr (Or.inl hxa))
        obtain ⟨lv', hlv', hlv'le⟩ := hrstep.xlow la hla
        exact ⟨lv', lx, hlv', hrstep.low x hxv hxind lx hlx,
          hlv'le.trans hle⟩
    · intro z hz
      rcases List.mem_cons.mp hz with rfl | hz'
      · exact EdgeDone_stable hedge_a hrstep.idx hrstep.xlow hrstep.stay
          hrstep.sccs_append
      · exact hredges z hz'

end WetwireAws.Topology

namespace WetwireAws.Topology

theorem containsS_iff (l : List String) (a : String) :
    l.contains a = true ↔ a ∈ l := by
  simp [List.contains, List.elem_iff]

theorem tjClose_root_eq (v : String) (st2 : TjSt) (Δ2 S : List String)
    (hstk : st2.stack = Δ2 ++ v :: S) (hvn : v ∉ Δ2)
    (hcond : tjLowlink st2 v = tjIndex st2 v) :
    tjClose v st2 = { st2 with
      stack := S,
      onStack := st2.onStack.filter (fun w => !((Δ2 ++ [v]).contains w)),
      sccs := st2.sccs ++ [Δ2 ++ [v]] } := by
  obtain ⟨hTW, hDW⟩ := takeWhile_ne_append S hvn
  simp only [tjClose]
  rw [if_pos hcond, hstk, hTW, hDW]
  rfl

theorem tjClose_skip_eq (v : String) (st2 : TjSt)
    (hcond : ¬ tjLowlink st2 v = tjIndex st2 v) :
    tjClose v st2 = st2 := by
  simp only [tjClose]
  rw [if_neg hcond]

end WetwireAws.Topology

namespace WetwireAws.Topology

theorem tjClose_root_spec (nodes : List String) (g : String → List String)
    (v : String) (st st2 : TjSt) (Δ2 : List String)
    (hWF : TjWF nodes g st) (wf2 : TjWF nodes g st2)
    (hstep : TjStep v st st2)
    (hstk2 : st2.stack = Δ2 ++ v :: st.stack)
    (hvnΔ : v ∉ Δ2)
    (hvidx2 : tjIndex st2 v = some st.counter)
    (hvl : tjLowlink st2 v = some st.counter)
    (hfinΔ : ∀ x ∈ Δ2, FinNodeS g st2 x)
    (hfinv : FinNodeS g st2 v)
    (hvle2 : ∀ x ∈ Δ2, ∃ la lx, tjLowlink st2 v = some la ∧
      tjLowlink st2 x = some lx ∧ la ≤ lx) :
    TjWF nodes g (tjClose v st2) ∧ TjStep v st2 (tjClose v st2) ∧
    (tjClose v st2).stack = st.stack ∧ inSccT (tjClose v st2) v ∧
    tjLowlink (tjClose v st2) v = tjIndex (tjClose v st2) v := by
  have hcond : tjLowlink st2 v = tjIndex st2 v := by rw [hvl, hvidx2]
  have hclose := tjClose_root_eq v st2 Δ2 st.stack hstk2 hvnΔ hcond
  have hmem2 : ∀ u, u ∈ st2.stack ↔ u ∈ Δ2 ∨ u = v ∨ u ∈ st.stack := by
    intro u
    rw [hstk2]
    simp
  have hnd2 : (Δ2 ++ v :: st.stack).Nodup := by
    rw [← hstk2]
    exact wf2.stack_nodup
  have hndparts := List.nodup_append.mp hnd2
  have hndΔ : Δ2.Nodup := hndparts.1
  have hdisj : ∀ a ∈ Δ2, a ∉ v :: st.stack := fun a ha hb => hndparts.2.2 ha hb
  have hvnotS : v ∉ st.stack := (List.nodup_cons.mp hndparts.2.1).1
  have hndS : st.stack.Nodup := (List.nodup_cons.mp hndparts.2.1).2
  have hsccnd : (Δ2 ++ [v]).Nodup := by
    rw [List.nodup_append]
    exact ⟨hndΔ, List.nodup_singleton v,
      fun a ha hb => hvnΔ (by rw [List.mem_singleton.mp hb] at ha; exact ha)⟩
  have hsccStack : ∀ x ∈ Δ2 ++ [v], x ∈ st2.stack := by
    intro x hx
    rcases List.mem_append.mp hx with h | h
    · exact (hmem2 x).mpr (Or.inl h)
    · exact (hmem2 x).mpr (Or.inr (Or.inl (List.mem_singleton.mp h)))
  have hlow_ge : ∀ x ∈ Δ2 ++ [v], ∀ lx, tjLowlink st2 x = some lx →
      st.counter ≤ lx := by
    intro x hx lx hlx
    rcases List.mem_append.mp hx with h | h
    · obtain ⟨la, lx', hla, hlx', hle⟩ := hvle2 x h
      rw [hvl] at hla
      injection hla with hla
      rw [hlx] at hlx'
      injection hlx' with hlx'
      omega
    · rw [List.mem_singleton.mp h] at hlx
      rw [hvl] at hlx
      injection hlx with hlx
      omega
  have hidx_old : ∀ w ∈ st.stack, ∃ j, tjIndex st2 w = some j ∧
      j < st.counter := by
    intro w hw
    obtain ⟨j, hj⟩ := Option.isSome_iff_exists.mp (hWF.stack_indexed w hw)
    exact ⟨j, hstep.idx w j hj, hWF.idx_lt_counter w j hj⟩
  have hedge_scc : ∀ x ∈ Δ2 ++ [v], ∀ w ∈ g x,
      w ∈ st2.sccs.join ∨ w ∈ Δ2 ++ [v] := by
    intro x hx w hw
    have hed : EdgeDone st2 x w := by
      rcases List.mem_append.mp hx with h | h
      · exact hfinΔ x h w hw
      · rw [List.mem_singleton.mp h]
        exact hfinv w (by rw [← List.mem_singleton.mp h]; exact hw)
    rcases hed.2 with hscc | ⟨hwstk, lx, iw, hlx, hiw, hle⟩
    · left
      obtain ⟨c, hc, hwc⟩ := hscc
      exact List.mem_join.mpr ⟨c, hc, hwc⟩
    · rcases (hmem2 w).mp hwstk with h | h | h
      · exact Or.inr (List.mem_append.mpr (Or.inl h))
      · exact Or.inr (List.mem_append.mpr (Or.inr (List.mem_singleton.mpr h)))
      · exfalso
        obtain ⟨j, hj, hjlt⟩ := hidx_old w h
        rw [hiw] at hj
        injection hj with hj
        have := hlow_ge x hx lx hlx
        omega
  rw [hclose]
  refine ⟨?_, ?_, rfl, ?_, ?_⟩
  · refine ⟨hndS, ?_, ?_, ?_, ?_, ?_, ?_, ?_, wf2.idx_lt_counter,
      wf2.low_def_iff, wf2.low_le_idx, ?_, ?_⟩
    · intro u
      constructor
      · intro hin
        obtain ⟨h1, h2⟩ := List.mem_filter.mp hin
        have h1' := (wf2.onStack_iff u).mp h1
        rw [Bool.not_eq_true'] at h2
        have h2' : u ∉ Δ2 ++ [v] := fun hc => by
          rw [(containsS_iff _ _).mpr hc] at h2
          cases h2
        rcases (hmem2 u).mp h1' with h | h | h
        · exact absurd (List.mem_append.mpr (Or.inl h)) h2'
        · exact absurd (List.mem_append.mpr (Or.inr (by
            rw [h]; exact List.mem_singleton.mpr rfl))) h2'
        · exact h
      · intro hu
        refine List.mem_filter.mpr ⟨(wf2.onStack_iff u).mpr
          ((hmem2 u).mpr (Or.inr (Or.inr hu))), ?_⟩
        rw [Bool.not_eq_true']
        by_contra hc
        have hc' : (Δ2 ++ [v]).contains u = true := by
          cases hcc : (Δ2 ++ [v]).contains u
          · exact absurd hcc hc
          · rfl
        rcases List.mem_append.mp ((containsS_iff _ _).mp hc') with h | h
        · exact hdisj u h (List.mem_cons_of_mem _ hu)
        · rw [List.mem_singleton.mp h] at hu
          exact hvnotS hu
    · intro u hu
      exact wf2.stack_indexed u ((hmem2 u).mpr (Or.inr (Or.inr hu)))
    · intro u hu
      obtain ⟨c, hc, huc⟩ := hu
      rcases List.mem_append.mp hc with h | h
      · exact wf2.scc_indexed u ⟨c, h, huc⟩
      · rw [List.mem_singleton.mp h] at huc
        exact wf2.stack_indexed u (hsccStack u huc)
    · intro u hu hscc
      obtain ⟨c, hc, huc⟩ := hscc
      rcases List.mem_append.mp hc with h | h
      · exact wf2.stack_scc_disjoint u ((hmem2 u).mpr (Or.inr (Or.inr hu)))
          ⟨c, h, huc⟩
      · rw [List.mem_singleton.mp h] at huc
        rcases List.mem_append.mp huc with h' | h'
        · exact hdisj u h' (List.mem_cons_of_mem _ hu)
        · rw [List.mem_singleton.mp h'] at hu
          exact hvnotS hu
    · have hj : (st2.sccs ++ [Δ2 ++ [v]]).join =
          st2.sccs.join ++ (Δ2 ++ [v]) := by simp
      show (st2.sccs ++ [Δ2 ++ [v]]).join.Nodup
      rw [hj, List.nodup_append]
      refine ⟨wf2.join_nodup, hsccnd, ?_⟩
      intro a ha hb
      have hscca : inSccT st2 a := by
        obtain ⟨c, hc, hac⟩ := List.mem_join.mp ha
        exact ⟨c, hc, hac⟩
      exact wf2.stack_scc_disjoint a (hsccStack a hb) hscca
    · intro u hu
      rcases wf2.indexed_cover u hu with h | h
      · rcases (hmem2 u).mp h with h' | h' | h'
        · exact Or.inr ⟨Δ2 ++ [v], List.mem_append.mpr (Or.inr
            (List.mem_singleton.mpr rfl)), List.mem_append.mpr (Or.inl h')⟩
        · exact Or.inr ⟨Δ2 ++ [v], List.mem_append.mpr (Or.inr
            (List.mem_singleton.mpr rfl)), List.mem_append.mpr (Or.inr (by
              rw [h']; exact List.mem_singleton.mpr rfl))⟩
        · exact Or.inl h'
      · obtain ⟨c, hc, huc⟩ := h
        exact Or.inr ⟨c, List.mem_append.mpr (Or.inl hc), huc⟩
    · intro u hu
      exact wf2.indexed_nodes u hu
    · intro u hu
      have huv : u ≠ v := fun h => hvnotS (h ▸ hu)
      have huidx : indexedT st u := hWF.stack_indexed u hu
      obtain ⟨lu, hlu⟩ :=
        Option.isSome_iff_exists.mp ((hWF.low_def_iff u).mpr huidx)
      obtain ⟨u', hu', hval⟩ := hWF.lval u hu
      have hlu2 : tjLowlink st2 u = some lu := hstep.low u huv huidx lu hlu
      have hval' : tjIndex st u' = some lu := by
        rw [← hval]
        exact hlu
      have hidx2 : tjIndex st2 u' = some lu := hstep.idx u' lu hval'
      refine ⟨u', hu', ?_⟩
      show tjLowlink st2 u = tjIndex st2 u'
      rw [hlu2, hidx2]
    · show SccsOrderedAux g [] (st2.sccs ++ [Δ2 ++ [v]])
      refine sccsOrderedAux_append g (Δ2 ++ [v]) st2.sccs [] wf2.ordered ?_
      intro x hx w hw
      rcases hedge_scc x hx w hw with h | h
      · exact Or.inl (by simpa using h)
      · exact Or.inr h
  · refine ⟨fun u i h => h, fun u _ _ i h => h, fun i h => ⟨i, h, le_refl i⟩,
      le_refl _, ⟨[Δ2 ++ [v]], rfl⟩, ?_, fun u i h => Or.inl h⟩
    intro u hu
    rcases hu with hstk | hscc
    · rcases (hmem2 u).mp hstk with h | h | h
      · exact Or.inr ⟨Δ2 ++ [v], List.mem_append.mpr (Or.inr
          (List.mem_singleton.mpr rfl)), List.mem_append.mpr (Or.inl h)⟩
      · exact Or.inr ⟨Δ2 ++ [v], List.mem_append.mpr (Or.inr
          (List.mem_singleton.mpr rfl)), List.mem_append.mpr (Or.inr (by
            rw [h]; exact List.mem_singleton.mpr rfl))⟩
      · exact Or.inl h
    · obtain ⟨c, hc, huc⟩ := hscc
      exact Or.inr ⟨c, List.mem_append.mpr (Or.inl hc), huc⟩
  · exact ⟨Δ2 ++ [v], List.mem_append.mpr (Or.inr (List.mem_singleton.mpr rfl)),
      List.mem_append.mpr (Or.inr (List.mem_singleton.mpr rfl))⟩
  · exact hcond

namespace WetwireAws.Topology

theorem strongconnect_spec (nodes : List String) (g : String → List String)
    (hgc : ∀ a w, w ∈ g a → w ∈ nodes) (hnd : nodes.Nodup) :
    ∀ (fuel : Nat) (v : String) (st : TjSt),
      TjWF nodes g st → v ∈ nodes → ¬ indexedT st v →
      unindexedCount nodes st ≤ fuel →
      SCPost nodes g v st (strongconnect g fuel v st) := by
  intro fuel
  induction fuel with
  | zero =>
    intro v st hWF hv hun hcnt
    exfalso
    have hmem : v ∈ nodes.filter (fun u => (tjIndex st u).isNone) := by
      refine List.mem_filter.mpr ⟨hv, ?_⟩
      show (tjIndex st v).isNone = true
      rw [Option.isNone_iff_eq_none]
      exact Option.not_isSome_iff_eq_none.mp hun
    have hpos := List.length_pos_of_mem hmem
    have hcnt' : unindexedCount nodes st = 0 := Nat.le_zero.mp hcnt
    rw [unindexedCount] at hcnt'
    omega
  | succ fuel ih =>
    intro v st hWF hv hun hcnt
    have hWF1 : TjWF nodes g (tjInit v st) := tjInit_WF nodes g st hWF v hv hun
    have hstep1 : TjStep v st (tjInit v st) :=
      tjInit_step st v hWF.low_def_iff hun
    have hcnt1 : unindexedCount nodes (tjInit v st) ≤ fuel := by
      have := unindexedCount_init nodes hnd v st hv hun
      omega
    have hv1 : v ∈ (tjInit v st).stack := by
      show v ∈ v :: st.stack
      exact List.mem_cons_self _ _
    obtain ⟨wf2, step2, split2, edges2⟩ := visitSuccs_spec nodes g fuel ih
      (g v) v (tjInit v st) hWF1 (fun w hw => hgc v w hw) hv1 hcnt1
    set st2 := visitSuccs g fuel v (g v) (tjInit v st) with hst2def
    obtain ⟨Δ2, hstk2, hnew2, hfin2, hvle2⟩ := split2
    have hscEq : strongconnect g (fuel + 1) v st = tjClose v st2 := by
      rw [hst2def]
      rfl
    have hstk2' : st2.stack = Δ2 ++ v :: st.stack := by
      rw [hstk2]
      rfl
    have hvnΔ : v ∉ Δ2 := fun h => hnew2 v h (indexedT_init_self v st)
    have hvidx1 : tjIndex (tjInit v st) v = some st.counter := by
      rw [tjIndex_init, if_pos rfl]
    have hvidx2 : tjIndex st2 v = some st.counter :=
      step2.idx v st.counter hvidx1
    obtain ⟨lv2, hlv2⟩ := Option.isSome_iff_exists.mp
      ((wf2.low_def_iff v).mpr (by rw [hvidx2]; rfl))
    have hlv2le : lv2 ≤ st.counter := wf2.low_le_idx v st.counter lv2
      hvidx2 hlv2
    by_cases hroot : lv2 = st.counter
    · have hvl : tjLowlink st2 v = some st.counter := by rw [hlv2, hroot]
      obtain ⟨wf3, step3, hstk3, hscc3, hloweq3⟩ := tjClose_root_spec nodes g
        v st st2 Δ2 hWF wf2 (hstep1.trans step2) hstk2' hvnΔ hvidx2 hvl
        hfin2 edges2 hvle2
      rw [hscEq]
      refine ⟨wf3, (hstep1.trans step2).trans step3,
        step3.idx v st.counter hvidx2,
        ⟨[], ?_, by simp, by simp, by simp,
          Or.inl ⟨rfl, hscc3, hloweq3⟩⟩⟩
      rw [hstk3]
      rfl
    · have hlt : lv2 < st.counter := lt_of_le_of_ne hlv2le hroot
      have hcond : ¬ tjLowlink st2 v = tjIndex st2 v := by
        rw [hlv2, hvidx2]
        intro h
        injection h with h
        exact hroot h
      rw [hscEq, tjClose_skip_eq v st2 hcond]
      refine ⟨wf2, hstep1.trans step2, hvidx2,
        ⟨Δ2 ++ [v], ?_, ?_, ?_, ?_,
          Or.inr ⟨List.mem_append.mpr (Or.inr (List.mem_singleton.mpr rfl)),
            lv2, st.counter, hlv2, hvidx2, hlt⟩⟩⟩
      · rw [hstk2']
        simp
      · intro x hx
        rcases List.mem_append.mp hx with h | h
        · intro hix
          exact hnew2 x h (indexedT_init_of hix)
        · rw [List.mem_singleton.mp h]
          exact hun
      · intro x hx
        rcases List.mem_append.mp hx with h | h
        · exact hfin2 x h
        · rw [List.mem_singleton.mp h]
          exact edges2
      · intro x hx
        rcases List.mem_append.mp hx with h | h
        · exact hvle2 x h
        · rw [List.mem_singleton.mp h]
          exact ⟨lv2, lv2, hlv2, hlv2, le_refl lv2⟩

end WetwireAws.Topology

namespace WetwireAws.Topology

theorem TjWF_empty (nodes : List String) (g : String → List String) :
    TjWF nodes g TjSt.empty := by
  refine ⟨List.nodup_nil, fun v => Iff.rfl, ?_, ?_, ?_, List.nodup_nil, ?_,
    ?_, ?_, fun v => Iff.rfl, ?_, ?_, trivial⟩
  · intro v hv
    exact absurd hv (List.not_mem_nil v)
  · intro v hv
    obtain ⟨c, hc, _⟩ := hv
    exact absurd hc (List.not_mem_nil c)
  · intro v hv
    exact absurd hv (List.not_mem_nil v)
  · intro v hv
    simp [indexedT, tjIndex, TjSt.empty, Wetwire.Registry.dictGet] at hv
  · intro v hv
    simp [indexedT, tjIndex, TjSt.empty, Wetwire.Registry.dictGet] at hv
  · intro v i h
    simp [tjIndex, TjSt.empty, Wetwire.Registry.dictGet] at h
  · intro v i j hi hj
    simp [tjIndex, TjSt.empty, Wetwire.Registry.dictGet] at hi
  · intro v hv
    exact absurd hv (List.not_mem_nil v)

/-- The driver loop of `find_strongly_connected_components`
(topology.py lines 75-77), parametrized by the remaining node list. -/
def tarjanLoop (nodes : List String) (g : String → List String)
    (l : List String) (st : TjSt) : TjSt :=
  l.foldl
    (fun st v => if (tjIndex st v).isNone then
      strongconnect g nodes.length v st else st) st

theorem tarjan_loop_spec (nodes : List String) (g : String → List String)
    (hgc : ∀ a w, w ∈ g a → w ∈ nodes) (hnd : nodes.Nodup) :
    ∀ (l : List String) (st : TjSt), (∀ w ∈ l, w ∈ nodes) →
      TjWF nodes g st → st.stack = [] →
      TjWF nodes g (tarjanLoop nodes g l st) ∧
      (tarjanLoop nodes g l st).stack = [] ∧
      (∀ u ∈ l, indexedT (tarjanLoop nodes g l st) u) ∧
      (∀ u, indexedT st u → indexedT (tarjanLoop nodes g l st) u) := by
  intro l
  induction l with
  | nil =>
    intro st _ hWF hstk
    exact ⟨hWF, hstk, by simp, fun u h => h⟩
  | cons a l' ihl =>
    intro st hl hWF hstk
    have heq : tarjanLoop nodes g (a :: l') st = tarjanLoop nodes g l'
        (if (tjIndex st a).isNone then strongconnect g nodes.length a st
         else st) := rfl
    by_cases han : (tjIndex st a).isNone = true
    · have haun : ¬ indexedT st a := by
        rw [Option.isNone_iff_eq_none] at han
        show ¬ (tjIndex st a).isSome = true
        rw [han]
        simp
      have hanodes : a ∈ nodes := hl a (List.mem_cons_self _ _)
      have hcnt : unindexedCount nodes st ≤ nodes.length :=
        List.length_filter_le _ _
      obtain ⟨wf', step', vidx', ⟨Δ, hstk', hnew', hfin', hvle', hor⟩⟩ :=
        strongconnect_spec nodes g hgc hnd nodes.length a st hWF hanodes
          haun hcnt
      have hΔnil : (strongconnect g nodes.length a st).stack = [] := by
        rcases hor with ⟨hΔ, _, _⟩ | ⟨haΔ, lv, iv, hlv, hiv, hlt⟩
        · rw [hstk', hΔ, hstk]
          rfl
        · exfalso
          have hastk : a ∈ (strongconnect g nodes.length a st).stack := by
            rw [hstk']
            exact List.mem_append.mpr (Or.inl haΔ)
          obtain ⟨u, hu, hval⟩ := wf'.lval a hastk
          rw [hlv] at hval
          have huΔ : u ∈ Δ := by
            rw [hstk', hstk] at hu
            simpa using hu
          have huun : ¬ indexedT st u := hnew' u huΔ
          rcases step'.idx_new u lv hval.symm with h | h
          · exact huun (by show (tjIndex st u).isSome = true; rw [h]; rfl)
          · rw [vidx'] at hiv
            injection hiv with hiv
            omega
      have hres := ihl (strongconnect g nodes.length a st)
        (fun w hw => hl w (List.mem_cons_of_mem _ hw)) wf' hΔnil
      obtain ⟨wfR, stkR, hidxl', hmono⟩ := hres
      rw [heq, if_pos han]
      have haind : indexedT (strongconnect g nodes.length a st) a := by
        show (tjIndex (strongconnect g nodes.length a st) a).isSome = true
        rw [vidx']
        rfl
      refine ⟨wfR, stkR, ?_, fun u h => hmono u (indexedT_mono step' h)⟩
      intro u hu
      rcases List.mem_cons.mp hu with rfl | hu'
      · exact hmono u haind
      · exact hidxl' u hu'
    · have haind : indexedT st a := by
        show (tjIndex st a).isSome = true
        rcases hh : tjIndex st a with _ | i
        · rw [Option.isNone_iff_eq_none] at han
          exact absurd hh han
        · rfl
      rw [heq, if_neg han]
      obtain ⟨wfR, stkR, hidxl', hmono⟩ := ihl st
        (fun w hw => hl w (List.mem_cons_of_mem _ hw)) hWF hstk
      refine ⟨wfR, stkR, ?_, hmono⟩
      intro u hu
      rcases List.mem_cons.mp hu with rfl | hu'
      · exact hmono u haind
      · exact hidxl' u hu'

theorem tarjanSCCs_spec (nodes : List String) (g : String → List String)
    (hgc : ∀ a w, w ∈ g a → w ∈ nodes) (hnd : nodes.Nodup) :
    (tarjanSCCs nodes g).join.Perm nodes ∧
    SccsOrderedAux g [] (tarjanSCCs nodes g) := by
  obtain ⟨wfF, stkF, hidxAll, _⟩ := tarjan_loop_spec nodes g hgc hnd nodes
    TjSt.empty (fun w hw => hw) (TjWF_empty nodes g) rfl
  have hEq : tarjanSCCs nodes g = (tarjanLoop nodes g nodes TjSt.empty).sccs :=
    rfl
  rw [hEq]
  constructor
  · refine (List.perm_ext_iff_of_nodup wfF.join_nodup hnd).mpr ?_
    intro u
    constructor
    · intro hu
      obtain ⟨c, hc, huc⟩ := List.mem_join.mp hu
      exact wfF.indexed_nodes u (wfF.scc_indexed u ⟨c, hc, huc⟩)
    · intro hu
      have hind := hidxAll u hu
      rcases wfF.indexed_cover u hind with h | h
      · rw [stkF] at h
        cases h
      · obtain ⟨c, hc, huc⟩ := h
        exact List.mem_join.mpr ⟨c, hc, huc⟩
  · exact wfF.ordered

end WetwireAws.Topology

namespace WetwireAws.Topology

/-- Template with the single reference edge `A → B` (and no cycle). -/
def tmplE : IRTemplate :=
  { parameters := []
    resources := [("A", resStub "A" "AWS::S3::Bucket"),
                  ("B", resStub "B" "AWS::S3::Bucket")]
    reference_graph := [("A", ["B"])] }

/-- C3 counterexample.  On the two-node acyclic template with the edge
`A → B`, `find_strongly_connected_components` returns `[[B], [A]]`: the
component of `A`'s dependency `B` appears EARLIER in the returned list,
not later, so the list is not in the reverse-topological order the claim
describes (it is in forward-topological order, dependencies first, as
the source docstring says). -/
theorem claim3_counterexample :
    find_strongly_connected_components tmplE [] [] = [["B"], ["A"]] ∧
    (find_resource_dependencies tmplE "A" [] []).filter
      (fun d => (tmplE.resources.map Prod.fst).contains d) = ["B"] := by
  constructor
  · rfl
  · rfl

/-- C3 amended.  When the resource keys are distinct,
`find_strongly_connected_components` returns a list of components whose
concatenation is a permutation of the resource-key set (each node in
exactly one component, exactly once), and the list is in
forward-topological order over components: if a member of component `i`
depends on a resource lying in component `j`, then `j ≤ i` — a
component's dependencies appear earlier in the returned list (or in the
same component), never later. -/
theorem claim3_scc_partition_and_order (tmpl : IRTemplate)
    (nmap : List (String × String)) (amap : List (String × (String × String)))
    (hnd : (tmpl.resources.map Prod.fst).Nodup) :
    (find_strongly_connected_components tmpl nmap amap).join.Perm
      (tmpl.resources.map Prod.fst) ∧
    ∀ (i j : Nat)
      (hi : i < (find_strongly_connected_components tmpl nmap amap).length)
      (hj : j < (find_strongly_connected_components tmpl nmap amap).length),
      ∀ x ∈ (find_strongly_connected_components tmpl nmap amap).get ⟨i, hi⟩,
      ∀ w ∈ find_resource_dependencies tmpl x nmap amap,
        w ∈ tmpl.resources.map Prod.fst →
        w ∈ (find_strongly_connected_components tmpl nmap amap).get ⟨j, hj⟩ →
        j ≤ i := by
  have hgc : ∀ a w, w ∈ (fun rid =>
      (find_resource_dependencies tmpl rid nmap amap).filter
        (fun d => (tmpl.resources.map Prod.fst).contains d)) a →
      w ∈ tmpl.resources.map Prod.fst := by
    intro a w hw
    exact (containsS_iff _ w).mp (List.mem_filter.mp hw).2
  obtain ⟨hperm, hord⟩ := tarjanSCCs_spec (tmpl.resources.map Prod.fst)
    (fun rid => (find_resource_dependencies tmpl rid nmap amap).filter
      (fun d => (tmpl.resources.map Prod.fst).contains d)) hgc hnd
  have hpermL : (find_strongly_connected_components tmpl nmap amap).join.Perm
      (tmpl.resources.map Prod.fst) := hperm
  have hordL : SccsOrderedAux (fun rid =>
      (find_resource_dependencies tmpl rid nmap amap).filter
        (fun d => (tmpl.resources.map Prod.fst).contains d)) []
      (find_strongly_connected_components tmpl nmap amap) := hord
  refine ⟨hpermL, ?_⟩
  intro i j hi hj x hx w hw hwkeys hwj
  have hwg : w ∈ (fun rid =>
      (find_resource_dependencies tmpl rid nmap amap).filter
        (fun d => (tmpl.resources.map Prod.fst).contains d)) x :=
    List.mem_filter.mpr ⟨hw, (containsS_iff _ w).mpr hwkeys⟩
  rcases sccsOrderedAux_spec _ _ _ hordL i hi x hx w hwg with h |
    ⟨k, hk, hki, hkw⟩
  · exact absurd h (List.not_mem_nil w)
  · have hjoin : (find_strongly_connected_components tmpl nmap amap).join.Nodup :=
      hpermL.nodup_iff.mpr hnd
    have hjk := mem_unique_scc _ hjoin j k hj hk w hwj hkw
    omega

/-- C3 witness: on the concrete two-resource template the keys are
distinct and the components partition them. -/
theorem claim3_witness :
    (tmplE.resources.map Prod.fst).Nodup ∧
    (find_strongly_connected_components tmplE [] []).join.Perm
      (tmplE.resources.map Prod.fst) :=
  ⟨by decide, (claim3_scc_partition_and_order tmplE [] [] (by decide)).1⟩

end WetwireAws.Topology
